import Mathlib

/-!
# Verification of the inkwell vector region compositor

A shallow embedding of the core of the inkwell illustration tool:

* the `Camera` world↔screen transforms (`src/core/camera.ts`), over real
  arithmetic;
* the `HistoryManager` undo/redo stack (`history.ts`);
* the `PaperRenderer` merge engine, spatial index and topology resolver
  (`paper-renderer.ts`), over a finite point-set model of 2D geometry with the
  boolean-operation kernel abstracted as a capability record (the source
  delegates booleans to paper.js and defends against degenerate results).

Geometry model: a region's filled geometry is a `Finset (ℤ × ℤ)` of lattice
points.  `unite`/`subtract` of the external kernel are modelled as a parameter
(`BoolKernel`); the exact kernel `KExact` interprets them as set union and set
difference.  Bounding boxes, box intersection/containment and point
containment are computed from the point sets.  Interior sample points of a
region (the source's `samplePoints` heuristic, which collects points verified
to lie inside the path) are modelled as the region's point set itself: in the
lattice model every point of the geometry is a verified interior sample.
-/

namespace Inkwell

/-! ## Finite point-set geometry -/

/-- A lattice point of the plane. -/
abbrev Pt := ℤ × ℤ

/-- A filled geometry: the finite set of lattice points it covers. -/
abbrev Geom := Finset Pt

/-- An axis-aligned bounding box (`paper.Rectangle` with
`minX ≤ maxX`, `minY ≤ maxY` for nonempty geometry). -/
structure Box where
  minX : ℤ
  minY : ℤ
  maxX : ℤ
  maxY : ℤ
deriving DecidableEq, Repr

/-- Bounding box of a geometry (`item.bounds`); `none` for empty geometry. -/
def boxOf (g : Geom) : Option Box :=
  if h : g.Nonempty then
    some { minX := (g.image Prod.fst).min' (h.image _)
           minY := (g.image Prod.snd).min' (h.image _)
           maxX := (g.image Prod.fst).max' (h.image _)
           maxY := (g.image Prod.snd).max' (h.image _) }
  else none

/-- `Rectangle.intersects` on two boxes (non-strict interval overlap). -/
def Box.intersects (a b : Box) : Bool :=
  a.minX ≤ b.maxX && b.minX ≤ a.maxX && a.minY ≤ b.maxY && b.minY ≤ a.maxY

/-- `Rectangle.contains(rect)`: `a` contains `b` (non-strict). -/
def Box.containsBox (a b : Box) : Bool :=
  a.minX ≤ b.minX && b.maxX ≤ a.maxX && a.minY ≤ b.minY && b.maxY ≤ a.maxY

/-- `Rectangle.expand`: grow the box by `p` on each side
(the source passes `padding * 2` to `expand`, which adds `padding` per side). -/
def Box.expandBy (b : Box) (p : ℤ) : Box :=
  { minX := b.minX - p, minY := b.minY - p, maxX := b.maxX + p, maxY := b.maxY + p }

/-- `Rectangle.center` of a box (integer midpoint in the lattice model). -/
def Box.center (b : Box) : Pt :=
  ((b.minX + b.maxX) / 2, (b.minY + b.maxY) / 2)

/-- Bounds intersection lifted to possibly-empty geometries. -/
def boxIntersectsO : Option Box → Option Box → Bool
  | some a, some b => a.intersects b
  | _, _ => false

/-- Bounds containment lifted to possibly-empty geometries. -/
def boxContainsO : Option Box → Option Box → Bool
  | some a, some b => a.containsBox b
  | _, _ => false

/-- `a.intersects(b)` of the boolean-op capability: the filled geometries
share a point. -/
def geomIntersects (a b : Geom) : Bool := (a ∩ b).Nonempty

/-- `path.contains(point)` of the boolean-op capability. -/
def geomContains (g : Geom) (p : Pt) : Bool := p ∈ g

/-- A point of `g` lies inside `g`'s bounding box. -/
theorem mem_boxOf {g : Geom} {p : Pt} (hp : p ∈ g) :
    ∃ b, boxOf g = some b ∧
      b.minX ≤ p.1 ∧ p.1 ≤ b.maxX ∧ b.minY ≤ p.2 ∧ p.2 ≤ b.maxY := by
  have hne : g.Nonempty := ⟨p, hp⟩
  rw [boxOf, dif_pos hne]
  exact ⟨_, rfl,
    Finset.min'_le _ _ (Finset.mem_image_of_mem _ hp),
    Finset.le_max' _ _ (Finset.mem_image_of_mem _ hp),
    Finset.min'_le _ _ (Finset.mem_image_of_mem _ hp),
    Finset.le_max' _ _ (Finset.mem_image_of_mem _ hp)⟩

/-- If two geometries share a point, their bounding boxes intersect. -/
theorem boxIntersectsO_of_mem {a b : Geom} {p : Pt} (ha : p ∈ a) (hb : p ∈ b) :
    boxIntersectsO (boxOf a) (boxOf b) = true := by
  obtain ⟨ba, hba, h1, h2, h3, h4⟩ := mem_boxOf ha
  obtain ⟨bb, hbb, h5, h6, h7, h8⟩ := mem_boxOf hb
  simp [hba, hbb, boxIntersectsO, Box.intersects]
  omega

/-- A box intersecting `b` also intersects any expansion of `b`
(for `0 ≤ p`). -/
theorem Box.intersects_expandBy {a b : Box} {p : ℤ} (hp : 0 ≤ p)
    (h : a.intersects b = true) : (b.expandBy p).intersects a = true := by
  simp only [Box.intersects, Box.expandBy, Bool.and_eq_true, decide_eq_true_eq] at h ⊢
  omega

/-- Subset geometries have nested bounding boxes. -/
theorem boxContainsO_of_subset {a b : Geom} (hne : a.Nonempty) (h : a ⊆ b) :
    boxContainsO (boxOf b) (boxOf a) = true := by
  have hbne : b.Nonempty := hne.mono h
  rw [boxOf, boxOf, dif_pos hne, dif_pos hbne]
  simp only [boxContainsO, Box.containsBox, Bool.and_eq_true, decide_eq_true_eq]
  refine ⟨⟨⟨?_, ?_⟩, ?_⟩, ?_⟩
  · apply Finset.le_min'
    intro y hy
    obtain ⟨x, hx, rfl⟩ := Finset.mem_image.mp hy
    exact Finset.min'_le _ _ (Finset.mem_image_of_mem _ (h hx))
  · apply Finset.max'_le
    intro y hy
    obtain ⟨x, hx, rfl⟩ := Finset.mem_image.mp hy
    exact Finset.le_max' _ _ (Finset.mem_image_of_mem _ (h hx))
  · apply Finset.le_min'
    intro y hy
    obtain ⟨x, hx, rfl⟩ := Finset.mem_image.mp hy
    exact Finset.min'_le _ _ (Finset.mem_image_of_mem _ (h hx))
  · apply Finset.max'_le
    intro y hy
    obtain ⟨x, hx, rfl⟩ := Finset.mem_image.mp hy
    exact Finset.le_max' _ _ (Finset.mem_image_of_mem _ (h hx))

/-! ## Regions, the boolean-operation capability and the renderer state
(`paper-renderer.ts`)

A `Region` is one layer child (`paper.Path` / `paper.CompoundPath`): a unique
item id, a fill color (abstracted to a `ℕ` color key, the source compares
colors through `fillColor.toCSS(true)` strings) and its filled geometry.

The polygon-boolean kernel (paper.js `unite`/`subtract`) is an external
capability; it is a parameter `BoolKernel` whose operations may return `none`
(a thrown/`null` result) or an empty geometry even for well-behaved inputs —
the degenerate outputs the source defends against.  `KExact` is the exact
kernel, interpreting the operations as set union and set difference.

`normalizeBooleanResult` (`resolveCrossings` + `reorient`) canonicalizes
contour windings without changing the filled point set, so it is the identity
on the point-set model.  The `changedItems` accumulator of the source only
feeds `normalizeAfterLocalEdit`, whose compound-splitting pass rearranges
contours of individual items without changing their filled point sets; it is
modelled by the identity here and studied structurally in the topology
resolver section below. -/

/-- One layer child: item id, fill color key, filled geometry. -/
structure Region where
  id : ℕ
  color : ℕ
  geom : Geom
deriving DecidableEq

/-- The external polygon-boolean kernel capability. -/
structure BoolKernel where
  unite : Geom → Geom → Option Geom
  subtract : Geom → Geom → Option Geom

/-- The exact kernel: union and difference of point sets. -/
def KExact : BoolKernel :=
  { unite := fun a b => some (a ∪ b), subtract := fun a b => some (a \ b) }

/-- `normalizeBooleanResult`: winding/self-intersection cleanup, the identity
on filled point sets. -/
def normalizeBooleanResult (result : Option Geom) : Option Geom := result

/-- Renderer state: the active layer's children (bottom to top), the spatial
index entries (`id`, bounding box captured at insertion), the dirty flag, and
the next fresh paper item id. -/
structure RendererState where
  layer : List Region
  index : List (ℕ × Box)
  indexDirty : Bool
  nextId : ℕ
deriving DecidableEq

namespace RendererState

/-- Bounding box of a geometry with paper's zero rectangle for empty paths. -/
def boxOfD (g : Geom) : Box := (boxOf g).getD ⟨0, 0, 0, 0⟩

/-- `makeIndexEntry`. -/
def makeIndexEntry (r : Region) : ℕ × Box := (r.id, boxOfD r.geom)

/-- `rebuildSpatialIndex`: full scan of the live layer children. -/
def rebuildSpatialIndex (s : RendererState) : RendererState :=
  { s with index := s.layer.map makeIndexEntry, indexDirty := false }

/-- `ensureSpatialIndex`: rebuild exactly when the dirty flag is set. -/
def ensureSpatialIndex (s : RendererState) : RendererState :=
  if s.indexDirty then s.rebuildSpatialIndex else s

/-- `indexRemove` (by item id). -/
def indexRemove (s : RendererState) (i : ℕ) : RendererState :=
  { s with index := s.index.filter (fun e => e.1 ≠ i) }

/-- `indexInsert`. -/
def indexInsert (s : RendererState) (r : Region) : RendererState :=
  { s with index := makeIndexEntry r :: s.index }

/-- `indexUpsert` (remove then insert). -/
def indexUpsert (s : RendererState) (r : Region) : RendererState :=
  (s.indexRemove r.id).indexInsert r

/-- Whether an item id is still attached to the layer (`item.parent`). -/
def isLive (s : RendererState) (i : ℕ) : Bool := s.layer.any (fun r => r.id = i)

/-- `queryByBounds`: ensure the index, search entries intersecting the padded
box, and return the still-live regions for the hits. -/
def queryByBounds (s₀ : RendererState) (b : Box) (padding : ℤ) :
    RendererState × List Region :=
  let s := s₀.ensureSpatialIndex
  let bb := b.expandBy padding
  (s, (s.index.filter fun e => bb.intersects e.2).filterMap
    (fun e => s.layer.find? (fun r => r.id = e.1)))

end RendererState

/-- `pathsCollide`: bounds must intersect; then boundary/containment tests
confirm a collision, with a conservative fallback that treats bounds overlap
alone as a collision. -/
def pathsCollide (a b : Geom) : Bool :=
  if ¬ boxIntersectsO (boxOf a) (boxOf b) then false
  else if geomIntersects a b then true
  else if (match boxOf b with
           | some bb => geomContains a bb.center
           | none => false) ||
          (match boxOf a with
           | some ba => geomContains b ba.center
           | none => false) then true
  else true

/-- The interior sample points of a geometry (`samplePointsItem`): in the
lattice model every covered point is a verified interior sample. -/
def samplePointsItem (g : Geom) : Geom := g

/-- `likelyFullyCovered`: cheap bounds-containment reject, then require every
interior sample of the target to lie inside the cutter. -/
def likelyFullyCovered (cutter target : Geom) : Bool :=
  if ¬ boxContainsO (boxOf cutter) (boxOf target) then false
  else decide (∀ p ∈ samplePointsItem target, p ∈ cutter)

/-! ## Merge engine (`paper-renderer.ts`) -/

/-- Accumulator of `mergePathWithExisting`: the evolving `currentPath` and the
renderer state. -/
structure MergeAcc where
  current : Region
  st : RendererState
deriving DecidableEq

namespace RendererState

/-- Remove an item from the layer (`item.remove()`). -/
def layerRemove (s : RendererState) (i : ℕ) : RendererState :=
  { s with layer := s.layer.filter (fun r => r.id ≠ i) }

/-- Replace an item in place in the layer (`item.replaceWith(cleaned)`). -/
def layerReplace (s : RendererState) (i : ℕ) (r : Region) : RendererState :=
  { s with layer := s.layer.map (fun x => if x.id = i then r else x) }

end RendererState

/-- The body of `mergePathWithExisting`'s loop for one existing region:
skip dead or non-colliding regions; same color ⇒ unite (replacing both
operands by the union, which becomes the new `currentPath`); different color
⇒ the new path cuts the existing one, with the `likelyFullyCovered` guard
when the difference comes back empty or `null`. -/
def mergeStep (K : BoolKernel) (acc : MergeAcc) (ex : Region) : MergeAcc :=
  if ¬ (acc.st.isLive ex.id && pathsCollide acc.current.geom ex.geom) then acc
  else if ex.color = acc.current.color then
    match normalizeBooleanResult (K.unite acc.current.geom ex.geom) with
    | some united =>
      if united = ∅ then acc
      else
        let cleaned : Region := ⟨acc.st.nextId, acc.current.color, united⟩
        let st₁ := (acc.st.indexRemove ex.id).indexRemove acc.current.id
        let st₂ := (st₁.layerRemove acc.current.id).layerRemove ex.id
        let st₃ := { st₂ with layer := st₂.layer ++ [cleaned] }
        let st₄ := st₃.indexInsert cleaned
        { current := cleaned, st := { st₄ with nextId := st₄.nextId + 1 } }
    | none => acc
  else
    match normalizeBooleanResult (K.subtract ex.geom acc.current.geom) with
    | some diff =>
      if diff = ∅ then
        if likelyFullyCovered acc.current.geom ex.geom then
          { acc with st := (acc.st.indexRemove ex.id).layerRemove ex.id }
        else acc
      else
        let cleaned : Region := ⟨acc.st.nextId, ex.color, diff⟩
        let st₁ := acc.st.indexRemove ex.id
        let st₂ := st₁.layerReplace ex.id cleaned
        let st₃ := st₂.indexInsert cleaned
        { acc with st := { st₃ with nextId := st₃.nextId + 1 } }
    | none =>
      if likelyFullyCovered acc.current.geom ex.geom then
        { acc with st := (acc.st.indexRemove ex.id).layerRemove ex.id }
      else acc

/-- `mergePathWithExisting`: fold the merge step over the collision
candidates, in their given order. -/
def mergePathWithExisting (K : BoolKernel) (newPath : Region)
    (existing : List Region) (st : RendererState) : MergeAcc :=
  existing.foldl (mergeStep K) ⟨newPath, st⟩

/-- The body of `subtractPathFromExisting`'s loop for one existing region:
the eraser cuts every live colliding region regardless of color, with the
same empty-result guard. -/
def subtractStep (K : BoolKernel) (eraser : Geom) (st : RendererState)
    (ex : Region) : RendererState :=
  if ¬ (st.isLive ex.id && pathsCollide eraser ex.geom) then st
  else
    match normalizeBooleanResult (K.subtract ex.geom eraser) with
    | some diff =>
      if diff = ∅ then
        if likelyFullyCovered eraser ex.geom then
          (st.indexRemove ex.id).layerRemove ex.id
        else st
      else
        let cleaned : Region := ⟨st.nextId, ex.color, diff⟩
        let st₁ := st.indexRemove ex.id
        let st₂ := st₁.layerReplace ex.id cleaned
        let st₃ := st₂.indexInsert cleaned
        { st₃ with nextId := st₃.nextId + 1 }
    | none =>
      if likelyFullyCovered eraser ex.geom then
        (st.indexRemove ex.id).layerRemove ex.id
      else st

/-- `subtractPathFromExisting`: fold the subtract step over the candidates. -/
def subtractPathFromExisting (K : BoolKernel) (eraser : Geom)
    (existing : List Region) (st : RendererState) : RendererState :=
  existing.foldl (subtractStep K eraser) st

namespace RendererState

/-- The import loop of `addPath`: give each imported geometry the stroke
color and a fresh item id, append it to the layer and insert it into the
spatial index. -/
def importRegions (s : RendererState) (geoms : List Geom) (color : ℕ) :
    RendererState × List Region :=
  geoms.foldl
    (fun (p : RendererState × List Region) g =>
      let r : Region := ⟨p.1.nextId, color, g⟩
      ({ p.1 with layer := p.1.layer ++ [r],
                  index := makeIndexEntry r :: p.1.index,
                  nextId := p.1.nextId + 1 },
       p.2 ++ [r]))
    (s, [])

/-- Sort a deduplicated candidate set into layer (z-)order, as `addPath` and
`placeSelection` do with `layerOrder`. -/
def layerOrderSorted (s : RendererState) (cands : List Region) : List Region :=
  s.layer.filter (fun r => cands.any (fun c => c.id = r.id))

/-- The candidate-query loop of `addPath`: query the spatial index around
each new path's bounds (padding 2) and collect the hits that are not
themselves new paths. -/
def collectCandidates (s : RendererState) (newPaths : List Region) :
    RendererState × List Region :=
  newPaths.foldl
    (fun (p : RendererState × List Region) np =>
      let r := p.1.queryByBounds (boxOfD np.geom) 2
      (r.1, p.2 ++ r.2.filter
        (fun h => ¬ newPaths.any (fun x => x.id = h.id))))
    (s, [])

/-- The outer merge loop of `addPath`: merge each new path against the
candidate list. -/
def mergeAll (K : BoolKernel) (existing newPaths : List Region)
    (s : RendererState) : RendererState :=
  newPaths.foldl (fun s np => (mergePathWithExisting K np existing s).st) s

/-- `addPath`: ensure the index, import the traced geometries with the stroke
color, collect nearby existing candidates via the spatial index (padding 2,
excluding the new paths themselves) sorted by layer order, and merge each new
path against them.  (`normalizeAfterLocalEdit` is the identity on filled
point sets.) -/
def addPath (K : BoolKernel) (s₀ : RendererState) (newGeoms : List Geom)
    (color : ℕ) : RendererState :=
  let s₁ := s₀.ensureSpatialIndex
  if newGeoms.isEmpty then s₁
  else
    let imported := s₁.importRegions newGeoms color
    let newPaths := imported.2
    let q := collectCandidates imported.1 newPaths
    let existing := q.1.layerOrderSorted q.2
    mergeAll K existing newPaths q.1

/-- `subtractPath`: ensure the index, then for each imported eraser geometry
query nearby candidates and subtract it from them; the eraser itself is
never stored. -/
def subtractPath (K : BoolKernel) (s₀ : RendererState)
    (eraserGeoms : List Geom) : RendererState :=
  let s₁ := s₀.ensureSpatialIndex
  if eraserGeoms.isEmpty then s₁
  else
    eraserGeoms.foldl
      (fun s g =>
        let q := s.queryByBounds (boxOfD g) 2
        subtractPathFromExisting K g q.2 q.1)
      s₁

/-- `placeSelection`: upsert the moved item's index entry, query nearby
candidates (excluding the item), and run the same merge path as `addPath`. -/
def placeSelection (K : BoolKernel) (s₀ : RendererState) (item : Region) :
    RendererState :=
  let s₁ := s₀.ensureSpatialIndex
  let s₂ := if ¬ s₁.indexDirty then s₁.indexUpsert item else s₁
  let q := s₂.queryByBounds (boxOfD item.geom) 2
  let cands := q.2.filter (fun h => h.id ≠ item.id)
  let existing := q.1.layerOrderSorted cands
  (mergePathWithExisting K item existing q.1).st

/-- `clear`: remove every layer child and mark the spatial index dirty. -/
def clear (s : RendererState) : RendererState :=
  { s with layer := [], indexDirty := true }

end RendererState

/-! ### Case equations for the merge and subtract steps -/

/-- `pathsCollide` reduces to bounding-box intersection: the boundary and
center tests only confirm, and the conservative fallback accepts any pair of
intersecting bounds. -/
theorem pathsCollide_eq_boxIntersects (a b : Geom) :
    pathsCollide a b = boxIntersectsO (boxOf a) (boxOf b) := by
  unfold pathsCollide
  cases hb : boxIntersectsO (boxOf a) (boxOf b) <;> simp [hb]

/-- Non-colliding geometries are disjoint (contrapositive of bounding boxes
of overlapping geometries intersecting). -/
theorem disjoint_of_pathsCollide_false {a b : Geom}
    (h : pathsCollide a b = false) : Disjoint a b := by
  rw [Finset.disjoint_left]
  intro p hpa hpb
  rw [pathsCollide_eq_boxIntersects, boxIntersectsO_of_mem hpa hpb] at h
  exact absurd h (by simp)

/-- If `likelyFullyCovered` accepts, every sample point of the target lies in
the cutter. -/
theorem likelyFullyCovered_subset {cutter target : Geom}
    (h : likelyFullyCovered cutter target = true) :
    ∀ p ∈ samplePointsItem target, p ∈ cutter := by
  unfold likelyFullyCovered at h
  split at h
  · simp at h
  · simpa using h

/-- For a nonempty target contained in the cutter, the covered guard
accepts. -/
theorem likelyFullyCovered_of_subset {cutter target : Geom}
    (hne : target.Nonempty) (h : target ⊆ cutter) :
    likelyFullyCovered cutter target = true := by
  unfold likelyFullyCovered
  rw [boxContainsO_of_subset hne h]
  rw [if_neg (by simp)]
  simp only [samplePointsItem, decide_eq_true_eq]
  intro p hp
  exact h hp

/-- The covered guard rejects an empty target (its bounds are the empty
box). -/
theorem likelyFullyCovered_empty (cutter : Geom) :
    likelyFullyCovered cutter ∅ = false := by
  unfold likelyFullyCovered
  simp [boxOf, boxContainsO]

/-- `mergeStep` skips regions that are detached or do not collide. -/
theorem mergeStep_skip {K : BoolKernel} {acc : MergeAcc} {ex : Region}
    (h : (acc.st.isLive ex.id && pathsCollide acc.current.geom ex.geom) = false) :
    mergeStep K acc ex = acc := by
  unfold mergeStep
  rw [if_pos]
  simp [h]

/-- `mergeStep`, same-color branch with a nonempty union result: both
operands are replaced by the union, which becomes the new current path. -/
theorem mergeStep_unite {K : BoolKernel} {acc : MergeAcc} {ex : Region}
    {u : Geom}
    (hl : acc.st.isLive ex.id = true)
    (hc : pathsCollide acc.current.geom ex.geom = true)
    (hcol : ex.color = acc.current.color)
    (hu : K.unite acc.current.geom ex.geom = some u) (hne : u ≠ ∅) :
    mergeStep K acc ex =
      { current := ⟨acc.st.nextId, acc.current.color, u⟩,
        st := { layer := ((acc.st.layer.filter (fun r => r.id ≠ acc.current.id)).filter
                    (fun r => r.id ≠ ex.id)) ++
                  [⟨acc.st.nextId, acc.current.color, u⟩],
                index := RendererState.makeIndexEntry
                    ⟨acc.st.nextId, acc.current.color, u⟩ ::
                  ((acc.st.index.filter (fun e => e.1 ≠ ex.id)).filter
                    (fun e => e.1 ≠ acc.current.id)),
                indexDirty := acc.st.indexDirty,
                nextId := acc.st.nextId + 1 } } := by
  unfold mergeStep
  rw [if_neg (by simp [hl, hc]), if_pos hcol]
  simp only [normalizeBooleanResult, hu, hne, if_false]
  rfl

/-- `mergeStep`, same-color branch when the union comes back empty or `null`:
nothing changes, both operands stay. -/
theorem mergeStep_unite_degenerate {K : BoolKernel} {acc : MergeAcc}
    {ex : Region}
    (hl : acc.st.isLive ex.id = true)
    (hc : pathsCollide acc.current.geom ex.geom = true)
    (hcol : ex.color = acc.current.color)
    (hu : K.unite acc.current.geom ex.geom = some ∅ ∨
      K.unite acc.current.geom ex.geom = none) :
    mergeStep K acc ex = acc := by
  unfold mergeStep
  rw [if_neg (by simp [hl, hc]), if_pos hcol]
  rcases hu with hu | hu <;> simp [normalizeBooleanResult, hu]

/-- `mergeStep`, different-color branch with a nonempty difference: the
existing region is replaced in place by the difference; the current path is
untouched. -/
theorem mergeStep_cut {K : BoolKernel} {acc : MergeAcc} {ex : Region}
    {d : Geom}
    (hl : acc.st.isLive ex.id = true)
    (hc : pathsCollide acc.current.geom ex.geom = true)
    (hcol : ex.color ≠ acc.current.color)
    (hs : K.subtract ex.geom acc.current.geom = some d) (hne : d ≠ ∅) :
    mergeStep K acc ex =
      { current := acc.current,
        st := { layer := acc.st.layer.map
                  (fun x => if x.id = ex.id then ⟨acc.st.nextId, ex.color, d⟩ else x),
                index := RendererState.makeIndexEntry ⟨acc.st.nextId, ex.color, d⟩ ::
                  acc.st.index.filter (fun e => e.1 ≠ ex.id),
                indexDirty := acc.st.indexDirty,
                nextId := acc.st.nextId + 1 } } := by
  unfold mergeStep
  rw [if_neg (by simp [hl, hc]), if_neg hcol]
  simp only [normalizeBooleanResult, hs, hne, if_false]
  rfl

/-- `mergeStep`, different-color branch with an empty or `null` difference:
the existing region is removed exactly when the covered guard accepts, and
kept untouched otherwise. -/
theorem mergeStep_cut_degenerate {K : BoolKernel} {acc : MergeAcc} {ex : Region}
    (hl : acc.st.isLive ex.id = true)
    (hc : pathsCollide acc.current.geom ex.geom = true)
    (hcol : ex.color ≠ acc.current.color)
    (hs : K.subtract ex.geom acc.current.geom = some ∅ ∨
      K.subtract ex.geom acc.current.geom = none) :
    mergeStep K acc ex =
      (if likelyFullyCovered acc.current.geom ex.geom then
        { acc with st := (acc.st.indexRemove ex.id).layerRemove ex.id }
      else acc) := by
  unfold mergeStep
  rw [if_neg (by simp [hl, hc]), if_neg hcol]
  rcases hs with hs | hs
  · simp only [normalizeBooleanResult, hs]
    rfl
  · simp only [normalizeBooleanResult, hs]

/-- `subtractStep` skips regions that are detached or do not collide. -/
theorem subtractStep_skip {K : BoolKernel} {eraser : Geom}
    {st : RendererState} {ex : Region}
    (h : (st.isLive ex.id && pathsCollide eraser ex.geom) = false) :
    subtractStep K eraser st ex = st := by
  unfold subtractStep
  rw [if_pos]
  simp [h]

/-- `subtractStep` with a nonempty difference: in-place replacement. -/
theorem subtractStep_cut {K : BoolKernel} {eraser : Geom}
    {st : RendererState} {ex : Region} {d : Geom}
    (hl : st.isLive ex.id = true)
    (hc : pathsCollide eraser ex.geom = true)
    (hs : K.subtract ex.geom eraser = some d) (hne : d ≠ ∅) :
    subtractStep K eraser st ex =
      { layer := st.layer.map
          (fun x => if x.id = ex.id then ⟨st.nextId, ex.color, d⟩ else x),
        index := RendererState.makeIndexEntry ⟨st.nextId, ex.color, d⟩ ::
          st.index.filter (fun e => e.1 ≠ ex.id),
        indexDirty := st.indexDirty,
        nextId := st.nextId + 1 } := by
  unfold subtractStep
  rw [if_neg (by simp [hl, hc])]
  simp only [normalizeBooleanResult, hs, hne, if_false]
  rfl

/-- `subtractStep` with an empty or `null` difference: removal exactly when
the covered guard accepts. -/
theorem subtractStep_degenerate {K : BoolKernel} {eraser : Geom}
    {st : RendererState} {ex : Region}
    (hl : st.isLive ex.id = true)
    (hc : pathsCollide eraser ex.geom = true)
    (hs : K.subtract ex.geom eraser = some ∅ ∨ K.subtract ex.geom eraser = none) :
    subtractStep K eraser st ex =
      (if likelyFullyCovered eraser ex.geom then
        (st.indexRemove ex.id).layerRemove ex.id
      else st) := by
  unfold subtractStep
  rw [if_neg (by simp [hl, hc])]
  rcases hs with hs | hs
  · simp only [normalizeBooleanResult, hs]
    rfl
  · simp only [normalizeBooleanResult, hs]

/-- Collision as the specification's words define it: bounding-box overlap
AND (boundary intersection OR mutual-center containment).  This refinement
definition follows the spec sentence and is compared against the source's
`pathsCollide`, which adds a conservative fallback. -/
def specCollide (a b : Geom) : Bool :=
  boxIntersectsO (boxOf a) (boxOf b) &&
    (geomIntersects a b ||
      ((match boxOf b with
        | some bb => geomContains a bb.center
        | none => false) ||
       (match boxOf a with
        | some ba => geomContains b ba.center
        | none => false)))

/-! ### `flatten` -/

/-- First-appearance order of the colors in the layer
(`[...new Set(allPaths.map(getColor))]`). -/
def colorsInOrder (L : List Region) : List ℕ :=
  (L.map Region.color).foldl
    (fun acc c => if c ∈ acc then acc else acc ++ [c]) []

/-- The per-color union loop of `flatten`: fold the kernel's `unite` over the
color group, keeping the accumulated result when a union comes back empty or
`null`.  Returns the group's result region and the next fresh id. -/
def uniteColorGroup (K : BoolKernel) (paths : List Region) (nid : ℕ) :
    Region × ℕ :=
  match paths with
  | [] => (⟨nid, 0, ∅⟩, nid)
  | p₀ :: rest =>
    rest.foldl
      (fun (acc : Region × ℕ) p =>
        match normalizeBooleanResult (K.unite acc.1.geom p.geom) with
        | some united =>
          if united = ∅ then acc
          else (⟨acc.2, acc.1.color, united⟩, acc.2 + 1)
        | none => acc)
      (p₀, nid)

/-- One bottom-cut inside `flatten`'s top-cuts-bottom pass: subtract the
current top from one colliding lower color's region, with the covered guard
on empty results.  `cp` is the live `colorPaths` map (color, region) and the
result threads the fresh-id counter. -/
def flattenCutStep (K : BoolKernel) (top : Region)
    (cp : List (ℕ × Region)) (nid : ℕ) (c : ℕ) : List (ℕ × Region) × ℕ :=
  match cp.find? (fun p => p.1 = c) with
  | none => (cp, nid)
  | some (_, bot) =>
    match normalizeBooleanResult (K.subtract bot.geom top.geom) with
    | some diff =>
      if diff = ∅ then
        if likelyFullyCovered top.geom bot.geom then
          (cp.filter (fun p => p.1 ≠ c), nid)
        else (cp, nid)
      else ((cp.map fun p => if p.1 = c then (c, (⟨nid, bot.color, diff⟩ : Region)) else p),
            nid + 1)
    | none =>
      if likelyFullyCovered top.geom bot.geom then
        (cp.filter (fun p => p.1 ≠ c), nid)
      else (cp, nid)

/-- One color of `flatten`'s union phase: union the color group (keeping the
accumulated result on degenerate unions) and append the one result region per
color. -/
def flattenUniteStep (K : BoolKernel) (L : List Region)
    (acc : List (ℕ × Region) × ℕ) (c : ℕ) : List (ℕ × Region) × ℕ :=
  let group := L.filter (fun r => r.color = c)
  let u := uniteColorGroup K group acc.2
  (acc.1 ++ [(c, u.1)], u.2)

/-- One top color of `flatten`'s top-cuts-bottom phase: look up the live top,
search the (pre-cut) entry boxes colliding with the top's current bounds, and
cut every strictly lower colliding color. -/
def flattenTopStep (K : BoolKernel) (zOrder : List ℕ)
    (entries : List (ℕ × Box)) (acc : List (ℕ × Region) × ℕ) (ti : ℕ) :
    List (ℕ × Region) × ℕ :=
  match zOrder[ti]? with
  | none => acc
  | some topColor =>
    match acc.1.find? (fun p => p.1 = topColor) with
    | none => acc
    | some (_, topPath) =>
      let b := RendererState.boxOfD topPath.geom
      let hits := entries.filter (fun e => b.intersects e.2)
      hits.foldl
        (fun (a : List (ℕ × Region) × ℕ) e =>
          if zOrder.indexOf e.1 < ti then
            flattenCutStep K topPath a.1 a.2 e.1
          else a)
        acc

/-- `flatten`: group the layer by color, union each group (removing every
group member other than the accumulated result), then process colors from
topmost to bottommost, subtracting each top from every lower colliding color
("top cuts bottom"), and finally rebuild the spatial index from the result. -/
def flatten (K : BoolKernel) (s : RendererState) : RendererState :=
  if s.layer.length < 2 then s
  else
    let zOrder := colorsInOrder s.layer
    let step1 := zOrder.foldl (flattenUniteStep K s.layer) ([], s.nextId)
    let entries : List (ℕ × Box) :=
      step1.1.map (fun p => (p.1, RendererState.boxOfD p.2.geom))
    let step3 := (List.range zOrder.length).reverse.foldl
      (flattenTopStep K zOrder entries) (step1.1, step1.2)
    let finalLayer := step3.1.map Prod.snd
    { layer := finalLayer,
      index := finalLayer.map RendererState.makeIndexEntry,
      indexDirty := false,
      nextId := step3.2 }

/-! ### Spatial-index accuracy -/

/-- The spatial index is accurate: it holds exactly one entry per live layer
child, with the child's current bounds. -/
def IndexAccurate (s : RendererState) : Prop :=
  (∀ r ∈ s.layer, RendererState.makeIndexEntry r ∈ s.index) ∧
  (∀ e ∈ s.index, ∃ r ∈ s.layer, e = RendererState.makeIndexEntry r)

namespace RendererState

theorem rebuild_accurate (s : RendererState) : IndexAccurate s.rebuildSpatialIndex := by
  constructor
  · intro r hr
    exact List.mem_map_of_mem _ hr
  · intro e he
    obtain ⟨r, hr, rfl⟩ := List.mem_map.mp he
    exact ⟨r, hr, rfl⟩

theorem ensure_dirty (s : RendererState) :
    s.ensureSpatialIndex.indexDirty = false := by
  unfold ensureSpatialIndex
  split
  · rfl
  · next h => simpa using h

theorem ensure_accurate (s : RendererState)
    (h : s.indexDirty = false → IndexAccurate s) :
    IndexAccurate s.ensureSpatialIndex := by
  unfold ensureSpatialIndex
  split
  · exact rebuild_accurate s
  · next hd => exact h (by simpa using hd)

theorem ensure_eq_of_not_dirty {s : RendererState} (h : s.indexDirty = false) :
    s.ensureSpatialIndex = s := by
  unfold ensureSpatialIndex
  rw [if_neg (by simp [h])]

theorem ensure_eq_of_dirty {s : RendererState} (h : s.indexDirty = true) :
    s.ensureSpatialIndex = s.rebuildSpatialIndex := by
  unfold ensureSpatialIndex
  rw [if_pos h]

theorem queryByBounds_fst_of_not_dirty {s : RendererState} {b : Box} {p : ℤ}
    (h : s.indexDirty = false) : (s.queryByBounds b p).1 = s := by
  unfold queryByBounds
  simp [ensure_eq_of_not_dirty h]

end RendererState

theorem accurate_union_shape {s : RendererState} (h : IndexAccurate s)
    (i j : ℕ) (cleaned : Region) (d : Bool) (n : ℕ) :
    IndexAccurate
      ⟨((s.layer.filter (fun r => r.id ≠ i)).filter (fun r => r.id ≠ j)) ++ [cleaned],
       RendererState.makeIndexEntry cleaned ::
         ((s.index.filter (fun e => e.1 ≠ j)).filter (fun e => e.1 ≠ i)),
       d, n⟩ := by
  constructor
  · intro r hr
    rcases List.mem_append.mp hr with hr | hr
    · have h2 := List.mem_filter.mp hr
      have h1 := List.mem_filter.mp h2.1
      refine List.mem_cons_of_mem _ ?_
      refine List.mem_filter.mpr ⟨List.mem_filter.mpr ⟨h.1 r h1.1, ?_⟩, ?_⟩
      · simpa [RendererState.makeIndexEntry] using h2.2
      · simpa [RendererState.makeIndexEntry] using h1.2
    · rw [List.mem_singleton.mp hr]
      exact List.mem_cons_self _ _
  · intro e he
    rcases List.mem_cons.mp he with he | he
    · exact ⟨cleaned, List.mem_append_right _ (List.mem_singleton.mpr rfl), he⟩
    · have h1 := List.mem_filter.mp he
      have h2 := List.mem_filter.mp h1.1
      obtain ⟨r, hr, rfl⟩ := h.2 e h2.1
      refine ⟨r, List.mem_append_left _ ?_, rfl⟩
      refine List.mem_filter.mpr ⟨List.mem_filter.mpr ⟨hr, ?_⟩, ?_⟩
      · simpa [RendererState.makeIndexEntry] using h1.2
      · simpa [RendererState.makeIndexEntry] using h2.2

theorem accurate_replace_shape {s : RendererState} (h : IndexAccurate s)
    {i : ℕ} (hlive : s.isLive i = true) (cleaned : Region) (d : Bool) (n : ℕ) :
    IndexAccurate
      ⟨s.layer.map (fun x => if x.id = i then cleaned else x),
       RendererState.makeIndexEntry cleaned :: s.index.filter (fun e => e.1 ≠ i),
       d, n⟩ := by
  constructor
  · intro r hr
    obtain ⟨x, hx, rfl⟩ := List.mem_map.mp hr
    by_cases hxi : x.id = i
    · rw [if_pos hxi]
      exact List.mem_cons_self _ _
    · rw [if_neg hxi]
      refine List.mem_cons_of_mem _ (List.mem_filter.mpr ⟨h.1 x hx, ?_⟩)
      simpa [RendererState.makeIndexEntry] using hxi
  · intro e he
    rcases List.mem_cons.mp he with he | he
    · obtain ⟨x, hx, hxi⟩ : ∃ x ∈ s.layer, x.id = i := by
        simpa [RendererState.isLive] using hlive
      refine ⟨cleaned, ?_, he⟩
      refine List.mem_map.mpr ⟨x, hx, ?_⟩
      rw [if_pos hxi]
    · have h1 := List.mem_filter.mp he
      obtain ⟨r, hr, rfl⟩ := h.2 e h1.1
      refine ⟨r, List.mem_map.mpr ⟨r, hr, ?_⟩, rfl⟩
      rw [if_neg (by simpa [RendererState.makeIndexEntry] using h1.2)]

theorem accurate_remove_shape {s : RendererState} (h : IndexAccurate s) (i : ℕ) :
    IndexAccurate ((s.indexRemove i).layerRemove i) := by
  constructor
  · intro r hr
    have h1 := List.mem_filter.mp hr
    refine List.mem_filter.mpr ⟨h.1 r h1.1, ?_⟩
    simpa [RendererState.makeIndexEntry] using h1.2
  · intro e he
    have h1 := List.mem_filter.mp he
    obtain ⟨r, hr, rfl⟩ := h.2 e h1.1
    refine ⟨r, List.mem_filter.mpr ⟨hr, ?_⟩, rfl⟩
    simpa [RendererState.makeIndexEntry] using h1.2

/-- One merge step keeps the spatial index accurate and never touches the
dirty flag. -/
theorem mergeStep_index {K : BoolKernel} {acc : MergeAcc} {ex : Region}
    (h : IndexAccurate acc.st) :
    IndexAccurate (mergeStep K acc ex).st ∧
    (mergeStep K acc ex).st.indexDirty = acc.st.indexDirty := by
  by_cases hskip :
      (acc.st.isLive ex.id && pathsCollide acc.current.geom ex.geom) = true
  · have hl : acc.st.isLive ex.id = true := by
      simpa using (Bool.and_eq_true _ _ |>.mp hskip).1
    have hc : pathsCollide acc.current.geom ex.geom = true := by
      simpa using (Bool.and_eq_true _ _ |>.mp hskip).2
    by_cases hcol : ex.color = acc.current.color
    · cases hk : K.unite acc.current.geom ex.geom with
      | none =>
        rw [mergeStep_unite_degenerate hl hc hcol (Or.inr hk)]
        exact ⟨h, rfl⟩
      | some u =>
        by_cases hu : u = ∅
        · rw [mergeStep_unite_degenerate hl hc hcol (Or.inl (hu ▸ hk))]
          exact ⟨h, rfl⟩
        · rw [mergeStep_unite hl hc hcol hk hu]
          exact ⟨accurate_union_shape h _ _ _ _ _, rfl⟩
    · cases hs : K.subtract ex.geom acc.current.geom with
      | none =>
        rw [mergeStep_cut_degenerate hl hc hcol (Or.inr hs)]
        split
        · exact ⟨accurate_remove_shape h ex.id, rfl⟩
        · exact ⟨h, rfl⟩
      | some d =>
        by_cases hd : d = ∅
        · rw [mergeStep_cut_degenerate hl hc hcol (Or.inl (hd ▸ hs))]
          split
          · exact ⟨accurate_remove_shape h ex.id, rfl⟩
          · exact ⟨h, rfl⟩
        · rw [mergeStep_cut hl hc hcol hs hd]
          exact ⟨accurate_replace_shape h hl _ _ _, rfl⟩
  · rw [mergeStep_skip (by simpa using hskip)]
    exact ⟨h, rfl⟩

/-- One eraser step keeps the spatial index accurate and never touches the
dirty flag. -/
theorem subtractStep_index {K : BoolKernel} {eraser : Geom}
    {st : RendererState} {ex : Region} (h : IndexAccurate st) :
    IndexAccurate (subtractStep K eraser st ex) ∧
    (subtractStep K eraser st ex).indexDirty = st.indexDirty := by
  by_cases hskip : (st.isLive ex.id && pathsCollide eraser ex.geom) = true
  · have hl : st.isLive ex.id = true := by
      simpa using (Bool.and_eq_true _ _ |>.mp hskip).1
    have hc : pathsCollide eraser ex.geom = true := by
      simpa using (Bool.and_eq_true _ _ |>.mp hskip).2
    cases hs : K.subtract ex.geom eraser with
    | none =>
      rw [subtractStep_degenerate hl hc (Or.inr hs)]
      split
      · exact ⟨accurate_remove_shape h ex.id, rfl⟩
      · exact ⟨h, rfl⟩
    | some d =>
      by_cases hd : d = ∅
      · rw [subtractStep_degenerate hl hc (Or.inl (hd ▸ hs))]
        split
        · exact ⟨accurate_remove_shape h ex.id, rfl⟩
        · exact ⟨h, rfl⟩
      · rw [subtractStep_cut hl hc hs hd]
        exact ⟨accurate_replace_shape h hl _ _ _, rfl⟩
  · rw [subtractStep_skip (by simpa using hskip)]
    exact ⟨h, rfl⟩

/-- The merge fold keeps the index accurate and the dirty flag unchanged. -/
theorem mergePathWithExisting_index {K : BoolKernel} (E : List Region) :
    ∀ (acc : MergeAcc), IndexAccurate acc.st →
      IndexAccurate (E.foldl (mergeStep K) acc).st ∧
      (E.foldl (mergeStep K) acc).st.indexDirty = acc.st.indexDirty := by
  induction E with
  | nil => intro acc h; exact ⟨h, rfl⟩
  | cons e tl ih =>
    intro acc h
    rw [List.foldl_cons]
    obtain ⟨h1, h2⟩ := @mergeStep_index K acc e h
    obtain ⟨h3, h4⟩ := ih _ h1
    exact ⟨h3, h4.trans h2⟩

/-- The eraser fold keeps the index accurate and the dirty flag unchanged. -/
theorem subtractPathFromExisting_index {K : BoolKernel} {eraser : Geom}
    (E : List Region) :
    ∀ (st : RendererState), IndexAccurate st →
      IndexAccurate (subtractPathFromExisting K eraser E st) ∧
      (subtractPathFromExisting K eraser E st).indexDirty = st.indexDirty := by
  induction E with
  | nil => intro st h; exact ⟨h, rfl⟩
  | cons e tl ih =>
    intro st h
    unfold subtractPathFromExisting
    rw [List.foldl_cons]
    obtain ⟨h1, h2⟩ := @subtractStep_index K eraser st e h
    obtain ⟨h3, h4⟩ := ih _ h1
    exact ⟨h3, h4.trans h2⟩

theorem accurate_append_shape {s : RendererState} (h : IndexAccurate s)
    (r : Region) (n : ℕ) :
    IndexAccurate
      { s with layer := s.layer ++ [r],
               index := RendererState.makeIndexEntry r :: s.index,
               nextId := n } := by
  constructor
  · intro x hx
    rcases List.mem_append.mp hx with hx | hx
    · exact List.mem_cons_of_mem _ (h.1 x hx)
    · rw [List.mem_singleton.mp hx]
      exact List.mem_cons_self _ _
  · intro e he
    rcases List.mem_cons.mp he with he | he
    · exact ⟨r, List.mem_append_right _ (List.mem_singleton.mpr rfl), he⟩
    · obtain ⟨x, hx, rfl⟩ := h.2 e he
      exact ⟨x, List.mem_append_left _ hx, rfl⟩

/-- The import loop of `addPath` keeps the index accurate and the dirty flag
unchanged. -/
theorem importRegions_fold_index (c : ℕ) (gs : List Geom) :
    ∀ (p : RendererState × List Region), IndexAccurate p.1 →
      IndexAccurate ((gs.foldl
        (fun (p : RendererState × List Region) g =>
          let r : Region := ⟨p.1.nextId, c, g⟩
          ({ p.1 with layer := p.1.layer ++ [r],
                      index := RendererState.makeIndexEntry r :: p.1.index,
                      nextId := p.1.nextId + 1 },
           p.2 ++ [r])) p).1) ∧
      ((gs.foldl
        (fun (p : RendererState × List Region) g =>
          let r : Region := ⟨p.1.nextId, c, g⟩
          ({ p.1 with layer := p.1.layer ++ [r],
                      index := RendererState.makeIndexEntry r :: p.1.index,
                      nextId := p.1.nextId + 1 },
           p.2 ++ [r])) p).1).indexDirty = p.1.indexDirty := by
  induction gs with
  | nil => intro p h; exact ⟨h, rfl⟩
  | cons g tl ih =>
    intro p h
    rw [List.foldl_cons]
    exact ih
      ({ p.1 with
          layer := p.1.layer ++ [⟨p.1.nextId, c, g⟩],
          index := RendererState.makeIndexEntry ⟨p.1.nextId, c, g⟩ :: p.1.index,
          nextId := p.1.nextId + 1 },
        p.2 ++ [⟨p.1.nextId, c, g⟩])
      (accurate_append_shape h _ _)

/-- The candidate-query loop of `addPath` leaves the state untouched when the
index is not dirty. -/
theorem queryFold_fst (newPaths : List Region) :
    ∀ (l : List Region) (p : RendererState × List Region),
      p.1.indexDirty = false →
      (l.foldl
        (fun (p : RendererState × List Region) np =>
          let r := p.1.queryByBounds (RendererState.boxOfD np.geom) 2
          (r.1, p.2 ++ r.2.filter
            (fun h => ¬ newPaths.any (fun x => x.id = h.id)))) p).1 = p.1 := by
  intro l
  induction l with
  | nil => intro p _; rfl
  | cons np tl ih =>
    intro p hp
    rw [List.foldl_cons]
    have hq := RendererState.queryByBounds_fst_of_not_dirty
      (s := p.1) (b := RendererState.boxOfD np.geom) (p := 2) hp
    rw [ih _ (by simpa [hq] using hp)]
    simpa using hq

/-- The state component of `importRegions`: accurate and dirty-flag
preserving. -/
theorem importRegions_index (s : RendererState) (gs : List Geom) (c : ℕ)
    (h : IndexAccurate s) :
    IndexAccurate (s.importRegions gs c).1 ∧
    (s.importRegions gs c).1.indexDirty = s.indexDirty := by
  unfold RendererState.importRegions
  exact importRegions_fold_index c gs (s, []) h

/-- The candidate-query loop leaves the state untouched when the index is not
dirty. -/
theorem collectCandidates_fst (s : RendererState) (newPaths : List Region)
    (h : s.indexDirty = false) :
    (RendererState.collectCandidates s newPaths).1 = s := by
  unfold RendererState.collectCandidates
  exact queryFold_fst newPaths newPaths (s, []) h

/-- The outer merge loop of `addPath` keeps the index accurate and the dirty
flag unchanged. -/
theorem mergeAll_index (K : BoolKernel) (existing : List Region) :
    ∀ (l : List Region) (s : RendererState), IndexAccurate s →
      IndexAccurate (RendererState.mergeAll K existing l s) ∧
      (RendererState.mergeAll K existing l s).indexDirty = s.indexDirty := by
  intro l
  induction l with
  | nil => intro s h; exact ⟨h, rfl⟩
  | cons np tl ih =>
    intro s h
    unfold RendererState.mergeAll
    rw [List.foldl_cons]
    obtain ⟨h1, h2⟩ := mergePathWithExisting_index (K := K) existing ⟨np, s⟩ h
    obtain ⟨h3, h4⟩ := ih _ h1
    exact ⟨h3, h4.trans h2⟩

/-- `addPath` never sets the dirty flag and maintains the index accurately. -/
theorem addPath_index (K : BoolKernel) (s₀ : RendererState)
    (gs : List Geom) (c : ℕ)
    (hacc : s₀.indexDirty = false → IndexAccurate s₀) :
    (s₀.addPath K gs c).indexDirty = false ∧
    IndexAccurate (s₀.addPath K gs c) := by
  have h₁d : s₀.ensureSpatialIndex.indexDirty = false :=
    RendererState.ensure_dirty s₀
  have h₁a : IndexAccurate s₀.ensureSpatialIndex :=
    RendererState.ensure_accurate s₀ hacc
  unfold RendererState.addPath
  by_cases hgs : gs.isEmpty
  · rw [if_pos hgs]
    exact ⟨h₁d, h₁a⟩
  · rw [if_neg hgs]
    obtain ⟨h₂a, h₂d⟩ :=
      importRegions_index s₀.ensureSpatialIndex gs c h₁a
    have h₂d' := h₂d.trans h₁d
    have main : ∀ (s₂ : RendererState) (nps : List Region),
        IndexAccurate s₂ → s₂.indexDirty = false →
        (RendererState.mergeAll K
          ((s₂.collectCandidates nps).1.layerOrderSorted
            (s₂.collectCandidates nps).2) nps
          (s₂.collectCandidates nps).1).indexDirty = false ∧
        IndexAccurate (RendererState.mergeAll K
          ((s₂.collectCandidates nps).1.layerOrderSorted
            (s₂.collectCandidates nps).2) nps
          (s₂.collectCandidates nps).1) := by
      intro s₂ nps ha hd
      rw [collectCandidates_fst _ _ hd]
      obtain ⟨h₃a, h₃d⟩ := mergeAll_index K _ nps s₂ ha
      exact ⟨h₃d.trans hd, h₃a⟩
    exact main _ _ h₂a h₂d'

/-- `subtractPath` never sets the dirty flag and maintains the index
accurately. -/
theorem subtractPath_index (K : BoolKernel) (s₀ : RendererState)
    (gs : List Geom)
    (hacc : s₀.indexDirty = false → IndexAccurate s₀) :
    (s₀.subtractPath K gs).indexDirty = false ∧
    IndexAccurate (s₀.subtractPath K gs) := by
  have h₁d : s₀.ensureSpatialIndex.indexDirty = false :=
    RendererState.ensure_dirty s₀
  have h₁a : IndexAccurate s₀.ensureSpatialIndex :=
    RendererState.ensure_accurate s₀ hacc
  unfold RendererState.subtractPath
  by_cases hgs : gs.isEmpty
  · rw [if_pos hgs]
    exact ⟨h₁d, h₁a⟩
  · rw [if_neg hgs]
    have key : ∀ (l : List Geom) (s : RendererState),
        IndexAccurate s → s.indexDirty = false →
        (l.foldl
          (fun s g =>
            let q := s.queryByBounds (RendererState.boxOfD g) 2
            subtractPathFromExisting K g q.2 q.1) s).indexDirty = false ∧
        IndexAccurate (l.foldl
          (fun s g =>
            let q := s.queryByBounds (RendererState.boxOfD g) 2
            subtractPathFromExisting K g q.2 q.1) s) := by
      intro l
      induction l with
      | nil => intro s ha hd; exact ⟨hd, ha⟩
      | cons g tl ih =>
        intro s ha hd
        rw [List.foldl_cons]
        have hq := RendererState.queryByBounds_fst_of_not_dirty
          (s := s) (b := RendererState.boxOfD g) (p := 2) hd
        obtain ⟨h1, h2⟩ := @subtractPathFromExisting_index K g
          ((s.queryByBounds (RendererState.boxOfD g) 2).2)
          ((s.queryByBounds (RendererState.boxOfD g) 2).1) (by rw [hq]; exact ha)
        exact ih _ h1 (by rw [h2, hq]; exact hd)
    obtain ⟨h1, h2⟩ := key gs s₀.ensureSpatialIndex h₁a h₁d
    exact ⟨h1, h2⟩

/-! ### The no-partial-overlap invariant

The merge engine is analyzed under the exact kernel `KExact` (a boolean
kernel that returns the true union and difference); the guards for
degenerate kernel outputs are analyzed separately under arbitrary kernels in
the error-handling claims. -/

/-- Id-uniqueness turns membership at equal ids into equality. -/
theorem eq_of_mem_of_id_eq {L : List Region}
    (hn : (L.map Region.id).Nodup) {a b : Region}
    (ha : a ∈ L) (hb : b ∈ L) (h : a.id = b.id) : a = b :=
  List.inj_on_of_nodup_map hn ha hb h

/-- With unique ids, `find?` by id recovers the member itself. -/
theorem find?_id_eq_of_mem {L : List Region}
    (hn : (L.map Region.id).Nodup) {r : Region} (hr : r ∈ L) :
    L.find? (fun x => x.id = r.id) = some r := by
  induction L with
  | nil => exact absurd hr (List.not_mem_nil r)
  | cons a tl ih =>
    by_cases ha : a.id = r.id
    · have : a = r := by
        rcases List.mem_cons.mp hr with rfl | hrt
        · rfl
        · exact absurd (List.mem_map_of_mem Region.id hrt)
            (by rw [List.map_cons] at hn; rw [ha] at hn; exact (List.nodup_cons.mp hn).1)
      rw [List.find?_cons_of_pos _ (by simp [ha])]
      rw [this]
    · rw [List.find?_cons_of_neg _ (by simp [ha])]
      have hrt : r ∈ tl := by
        rcases List.mem_cons.mp hr with rfl | hrt
        · exact absurd rfl ha
        · exact hrt
      exact ih (by rw [List.map_cons] at hn; exact (List.nodup_cons.mp hn).2) hrt

/-- A symmetric view of a pairwise-disjoint layer. -/
theorem allDisjoint_of_pairwise {L : List Region}
    (h : L.Pairwise (fun a b => Disjoint a.geom b.geom)) :
    ∀ a ∈ L, ∀ b ∈ L, a.id ≠ b.id → Disjoint a.geom b.geom := by
  intro a ha b hb hne
  have hsym : Symmetric (fun x y : Region => Disjoint x.geom y.geom) :=
    fun x y hxy => hxy.symm
  exact h.forall hsym ha hb (fun hab => hne (congrArg Region.id hab))

/-- The converse direction, given unique ids. -/
theorem pairwise_of_allDisjoint {L : List Region}
    (hn : (L.map Region.id).Nodup)
    (h : ∀ a ∈ L, ∀ b ∈ L, a.id ≠ b.id → Disjoint a.geom b.geom) :
    L.Pairwise (fun a b => Disjoint a.geom b.geom) := by
  have hid : L.Pairwise (fun a b => a.id ≠ b.id) := List.pairwise_map.mp hn
  exact hid.imp_of_mem (fun {a b} ha hb hne => h a ha b hb hne)

/-- The loop invariant of `mergePathWithExisting` under the exact kernel:
`S` is the suffix of collision candidates still to process. -/
structure MergeInv (acc : MergeAcc) (S : List Region) : Prop where
  nodup : (acc.st.layer.map Region.id).Nodup
  curMem : acc.current ∈ acc.st.layer
  others : ∀ a ∈ acc.st.layer, ∀ b ∈ acc.st.layer,
    a.id ≠ acc.current.id → b.id ≠ acc.current.id → a.id ≠ b.id →
    Disjoint a.geom b.geom
  overlap : ∀ r ∈ acc.st.layer, r.id ≠ acc.current.id →
    ¬ Disjoint r.geom acc.current.geom → r ∈ S
  liveVal : ∀ e ∈ S, ∀ r ∈ acc.st.layer, r.id = e.id → r = e
  freshL : ∀ r ∈ acc.st.layer, r.id < acc.st.nextId
  freshS : ∀ e ∈ S, e.id < acc.st.nextId
  freshC : acc.current.id < acc.st.nextId

/-- Replacing every occurrence of `i` by a fresh value keeps a nodup list
nodup. -/
theorem nodup_map_replace_id :
    ∀ (l : List ℕ) (i n : ℕ), l.Nodup → (∀ x ∈ l, x < n) →
      (l.map (fun x => if x = i then n else x)).Nodup := by
  intro l i n hl hlt
  induction l with
  | nil => simp
  | cons a tl ih =>
    rw [List.map_cons, List.nodup_cons]
    obtain ⟨hna, hntl⟩ := List.nodup_cons.mp hl
    refine ⟨?_, ih hntl (fun x hx => hlt x (List.mem_cons_of_mem _ hx))⟩
    intro hmem
    obtain ⟨x, hx, hxe⟩ := List.mem_map.mp hmem
    by_cases hxi : x = i
    · rw [if_pos hxi] at hxe
      by_cases hai : a = i
      · exact hna ((hai.trans hxi.symm) ▸ hx)
      · rw [if_neg hai] at hxe
        exact absurd hxe.symm (Nat.ne_of_lt (hlt a (List.mem_cons_self a tl)))
    · rw [if_neg hxi] at hxe
      by_cases hai : a = i
      · rw [if_pos hai] at hxe
        exact absurd hxe (Nat.ne_of_lt (hlt x (List.mem_cons_of_mem _ hx)))
      · rw [if_neg hai] at hxe
        exact hna (hxe ▸ hx)

/-- A live candidate with its id intact in the layer is the layer value. -/
theorem MergeInv.liveMem {acc : MergeAcc} {e : Region} {S : List Region}
    (h : MergeInv acc (e :: S)) (hl : acc.st.isLive e.id = true) :
    e ∈ acc.st.layer := by
  obtain ⟨x, hx, hxe⟩ : ∃ x ∈ acc.st.layer, x.id = e.id := by
    simpa [RendererState.isLive] using hl
  have hxeq := h.liveVal e (List.mem_cons_self e S) x hx hxe
  exact hxeq ▸ hx

/-- One merge step under the exact kernel preserves the loop invariant. -/
theorem mergeInv_step {acc : MergeAcc} {e : Region} {S : List Region}
    (h : MergeInv acc (e :: S)) : MergeInv (mergeStep KExact acc e) S := by
  by_cases hskip :
      (acc.st.isLive e.id && pathsCollide acc.current.geom e.geom) = true
  · have hl : acc.st.isLive e.id = true := by
      simpa using (Bool.and_eq_true _ _ |>.mp hskip).1
    have hc : pathsCollide acc.current.geom e.geom = true := by
      simpa using (Bool.and_eq_true _ _ |>.mp hskip).2
    have hemem : e ∈ acc.st.layer := h.liveMem hl
    by_cases hcol : e.color = acc.current.color
    · -- same color: union
      by_cases hu : acc.current.geom ∪ e.geom = ∅
      · rw [mergeStep_unite_degenerate hl hc hcol (Or.inl (by simp [KExact, hu]))]
        have hee : e.geom = ∅ := by
          have := Finset.union_eq_empty.mp hu
          exact this.2
        refine ⟨h.nodup, h.curMem, h.others, ?_,
          fun e' he' => h.liveVal e' (List.mem_cons_of_mem _ he'),
          h.freshL, fun e' he' => h.freshS e' (List.mem_cons_of_mem _ he'),
          h.freshC⟩
        intro r hr hne hov
        rcases List.mem_cons.mp (h.overlap r hr hne hov) with rfl | hm
        · rw [hee] at hov
          exact absurd (Finset.disjoint_empty_left _) hov
        · exact hm
      · rw [mergeStep_unite hl hc hcol rfl hu]
        set u := acc.current.geom ∪ e.geom with hu_def
        set cleaned : Region := ⟨acc.st.nextId, acc.current.color, u⟩
          with hcl_def
        set F := ((acc.st.layer.filter
            (fun r => r.id ≠ acc.current.id)).filter
            (fun r => r.id ≠ e.id)) with hF_def
        have hFsub : ∀ r ∈ F, r ∈ acc.st.layer ∧ r.id ≠ acc.current.id ∧
            r.id ≠ e.id := by
          intro r hr
          have h2 := List.mem_filter.mp hr
          have h1 := List.mem_filter.mp h2.1
          exact ⟨h1.1, by simpa using h1.2, by simpa using h2.2⟩
        have hFnody : (F.map Region.id).Nodup := by
          refine List.Nodup.sublist (List.Sublist.map Region.id ?_) h.nodup
          exact ((List.filter_sublist _).trans (List.filter_sublist _))
        refine MergeInv.mk ?_ ?_ ?_ ?_ ?_ ?_ ?_ ?_
        ·
          rw [List.map_append, List.map_singleton]
          rw [List.nodup_append]
          refine ⟨hFnody, List.nodup_singleton _, ?_⟩
          intro x hx
          obtain ⟨r, hr, rfl⟩ := List.mem_map.mp hx
          simp only [List.mem_singleton]
          exact Nat.ne_of_lt (h.freshL r (hFsub r hr).1)
        ·
          exact List.mem_append_right _ (List.mem_singleton.mpr rfl)
        ·
          intro a ha b hb hac hbc hab
          have ha' : a ∈ F := by
            rcases List.mem_append.mp ha with ha' | ha'
            · exact ha'
            · exact absurd (congrArg Region.id (List.mem_singleton.mp ha'))
                hac
          have hb' : b ∈ F := by
            rcases List.mem_append.mp hb with hb' | hb'
            · exact hb'
            · exact absurd (congrArg Region.id (List.mem_singleton.mp hb'))
                hbc
          obtain ⟨ham, hac', _⟩ := hFsub a ha'
          obtain ⟨hbm, hbc', _⟩ := hFsub b hb'
          exact h.others a ham b hbm hac' hbc' hab
        ·
          intro r hr hne hov
          have hr' : r ∈ F := by
            rcases List.mem_append.mp hr with hr' | hr'
            · exact hr'
            · exact absurd (congrArg Region.id (List.mem_singleton.mp hr'))
                hne
          obtain ⟨hrm, hrc, hre⟩ := hFsub r hr'
          have hov' : ¬ Disjoint r.geom acc.current.geom ∨
              ¬ Disjoint r.geom e.geom := by
            by_contra hcon
            push_neg at hcon
            exact hov (by
              show Disjoint r.geom u
              rw [hu_def, Finset.disjoint_union_right]
              exact ⟨hcon.1, hcon.2⟩)
          have hgoal : r ∈ e :: S := by
            rcases hov' with hov' | hov'
            · exact h.overlap r hrm hrc hov'
            · by_cases hec : e.id = acc.current.id
              · have : e = acc.current :=
                  eq_of_mem_of_id_eq h.nodup hemem h.curMem hec
                rw [this] at hov'
                exact h.overlap r hrm hrc hov'
              · exact absurd (h.others r hrm e hemem hrc hec hre) hov'
          rcases List.mem_cons.mp hgoal with rfl | hm
          · exact absurd rfl hre
          · exact hm
        ·
          intro e' he' r hr hrid
          rcases List.mem_append.mp hr with hr' | hr'
          · exact h.liveVal e' (List.mem_cons_of_mem _ he') r (hFsub r hr').1
              hrid
          · rw [List.mem_singleton.mp hr'] at hrid ⊢
            exact absurd hrid.symm
              (Nat.ne_of_lt (h.freshS e' (List.mem_cons_of_mem _ he')))
        ·
          intro r hr
          rcases List.mem_append.mp hr with hr' | hr'
          · exact Nat.lt_succ_of_lt (h.freshL r (hFsub r hr').1)
          · rw [List.mem_singleton.mp hr']
            exact Nat.lt_succ_self _
        ·
          intro e' he'
          exact Nat.lt_succ_of_lt (h.freshS e' (List.mem_cons_of_mem _ he'))
        ·
          exact Nat.lt_succ_self _
    · -- different color: cut
      have hec : e.id ≠ acc.current.id := by
        intro hid
        have : e = acc.current := eq_of_mem_of_id_eq h.nodup hemem h.curMem hid
        exact hcol (by rw [this])
      by_cases hd : e.geom \ acc.current.geom = ∅
      · rw [mergeStep_cut_degenerate hl hc hcol (Or.inl (by simp [KExact, hd]))]
        by_cases hcov : likelyFullyCovered acc.current.geom e.geom = true
        · rw [if_pos hcov]
          refine ⟨?_, ?_, ?_, ?_, ?_, ?_, ?_, ?_⟩
          · exact List.Nodup.sublist (List.Sublist.map Region.id
              (List.filter_sublist _)) h.nodup
          · refine List.mem_filter.mpr ⟨h.curMem, ?_⟩
            simpa using fun hh : acc.current.id = e.id => hec hh.symm
          · intro a ha b hb hac hbc hab
            exact h.others a (List.mem_of_mem_filter ha) b
              (List.mem_of_mem_filter hb) hac hbc hab
          · intro r hr hne hov
            have hre : r.id ≠ e.id := by
              simpa using (List.mem_filter.mp hr).2
            rcases List.mem_cons.mp
                (h.overlap r (List.mem_of_mem_filter hr) hne hov) with rfl | hm
            · exact absurd rfl hre
            · exact hm
          · intro e' he' r hr hrid
            exact h.liveVal e' (List.mem_cons_of_mem _ he') r
              (List.mem_of_mem_filter hr) hrid
          · intro r hr
            exact h.freshL r (List.mem_of_mem_filter hr)
          · intro e' he'
            exact h.freshS e' (List.mem_cons_of_mem _ he')
          · exact h.freshC
        · rw [if_neg hcov]
          have hesub : e.geom ⊆ acc.current.geom :=
            Finset.sdiff_eq_empty_iff_subset.mp hd
          have hee : e.geom = ∅ := by
            by_contra hne
            exact hcov (likelyFullyCovered_of_subset
              (Finset.nonempty_iff_ne_empty.mpr hne) hesub)
          refine ⟨h.nodup, h.curMem, h.others, ?_,
            fun e' he' => h.liveVal e' (List.mem_cons_of_mem _ he'),
            h.freshL, fun e' he' => h.freshS e' (List.mem_cons_of_mem _ he'),
            h.freshC⟩
          intro r hr hne hov
          rcases List.mem_cons.mp (h.overlap r hr hne hov) with rfl | hm
          · rw [hee] at hov
            exact absurd (Finset.disjoint_empty_left _) hov
          · exact hm
      · rw [mergeStep_cut hl hc hcol rfl hd]
        set d := e.geom \ acc.current.geom with hd_def
        set cleaned : Region := ⟨acc.st.nextId, e.color, d⟩ with hcl_def
        have hmap : ∀ r', r' ∈ acc.st.layer.map
            (fun x => if x.id = e.id then cleaned else x) →
            (r' = cleaned ∧ ∃ x ∈ acc.st.layer, x.id = e.id) ∨
            (r' ∈ acc.st.layer ∧ r'.id ≠ e.id) := by
          intro r' hr'
          obtain ⟨x, hx, hxe⟩ := List.mem_map.mp hr'
          by_cases hxi : x.id = e.id
          · rw [if_pos hxi] at hxe
            exact Or.inl ⟨hxe.symm, x, hx, hxi⟩
          · rw [if_neg hxi] at hxe
            exact Or.inr ⟨hxe ▸ hx, hxe ▸ hxi⟩
        refine MergeInv.mk ?_ ?_ ?_ ?_ ?_ ?_ ?_ ?_
        ·
          have hcomp : (acc.st.layer.map
              (fun x => if x.id = e.id then cleaned else x)).map Region.id =
              (acc.st.layer.map Region.id).map
                (fun x => if x = e.id then acc.st.nextId else x) := by
            rw [List.map_map, List.map_map]
            refine List.map_congr_left ?_
            intro x _
            by_cases hxi : x.id = e.id
            · simp [Function.comp, hxi, hcl_def]
            · simp [Function.comp, hxi]
          rw [hcomp]
          refine nodup_map_replace_id _ e.id acc.st.nextId h.nodup ?_
          intro x hx
          obtain ⟨r, hr, rfl⟩ := List.mem_map.mp hx
          exact h.freshL r hr
        ·
          refine List.mem_map.mpr ⟨acc.current, h.curMem, ?_⟩
          rw [if_neg (fun hh : acc.current.id = e.id => hec hh.symm)]
        ·
          intro a ha b hb hac hbc hab
          rcases hmap a ha with ⟨rfl, _⟩ | ⟨ham, hae⟩
          · rcases hmap b hb with ⟨rfl, _⟩ | ⟨hbm, hbe⟩
            · exact absurd rfl hab
            · show Disjoint d b.geom
              refine Disjoint.mono_left Finset.sdiff_subset ?_
              exact h.others e hemem b hbm hec hbc (fun hh => hbe hh.symm)
          · rcases hmap b hb with ⟨rfl, _⟩ | ⟨hbm, hbe⟩
            · show Disjoint a.geom d
              refine Disjoint.mono_right Finset.sdiff_subset ?_
              exact h.others a ham e hemem hac hec hae
            · exact h.others a ham b hbm hac hbc hab
        ·
          intro r hr hne hov
          rcases hmap r hr with ⟨rfl, _⟩ | ⟨hrm, hre⟩
          · exact absurd (Finset.sdiff_disjoint) hov
          · rcases List.mem_cons.mp (h.overlap r hrm hne hov) with rfl | hm
            · exact absurd rfl hre
            · exact hm
        ·
          intro e' he' r hr hrid
          rcases hmap r hr with ⟨rfl, _⟩ | ⟨hrm, _⟩
          · exact absurd hrid.symm
              (Nat.ne_of_lt (h.freshS e' (List.mem_cons_of_mem _ he')))
          · exact h.liveVal e' (List.mem_cons_of_mem _ he') r hrm hrid
        ·
          intro r hr
          rcases hmap r hr with ⟨rfl, _⟩ | ⟨hrm, _⟩
          · exact Nat.lt_succ_self _
          · exact Nat.lt_succ_of_lt (h.freshL r hrm)
        ·
          intro e' he'
          exact Nat.lt_succ_of_lt (h.freshS e' (List.mem_cons_of_mem _ he'))
        ·
          exact Nat.lt_succ_of_lt h.freshC
  · rw [mergeStep_skip (by simpa using hskip)]
    refine ⟨h.nodup, h.curMem, h.others, ?_,
      fun e' he' => h.liveVal e' (List.mem_cons_of_mem _ he'),
      h.freshL, fun e' he' => h.freshS e' (List.mem_cons_of_mem _ he'),
      h.freshC⟩
    intro r hr hne hov
    rcases List.mem_cons.mp (h.overlap r hr hne hov) with rfl | hm
    · rcases Bool.and_eq_false_iff.mp (Bool.eq_false_iff.mpr hskip) with hl | hc
      · exact absurd (by
          show acc.st.isLive r.id = true
          simp only [RendererState.isLive, List.any_eq_true]
          exact ⟨r, hr, by simp⟩) (by simp [hl])
      · exact absurd ((disjoint_of_pathsCollide_false hc).symm) hov
    · exact hm

/-- The whole merge fold preserves the invariant down to the empty suffix. -/
theorem mergeInv_fold :
    ∀ (S : List Region) (acc : MergeAcc), MergeInv acc S →
      MergeInv (S.foldl (mergeStep KExact) acc) [] := by
  intro S
  induction S with
  | nil => intro acc h; exact h
  | cons e tl ih =>
    intro acc h
    rw [List.foldl_cons]
    exact ih _ (mergeInv_step h)

/-- After the merge loop, the layer is pairwise disjoint. -/
theorem merge_final_pairwise {acc : MergeAcc} (h : MergeInv acc []) :
    acc.st.layer.Pairwise (fun a b => Disjoint a.geom b.geom) := by
  refine pairwise_of_allDisjoint h.nodup ?_
  intro a ha b hb hne
  by_cases hac : a.id = acc.current.id
  · have haeq : a = acc.current := eq_of_mem_of_id_eq h.nodup ha h.curMem hac
    have hbc : b.id ≠ acc.current.id := fun hh => hne (hac.trans hh.symm)
    have : Disjoint b.geom acc.current.geom := by
      by_contra hov
      exact absurd (h.overlap b hb hbc hov) (List.not_mem_nil b)
    rw [haeq]
    exact this.symm
  · by_cases hbc : b.id = acc.current.id
    · have hbeq : b = acc.current := eq_of_mem_of_id_eq h.nodup hb h.curMem hbc
      have : Disjoint a.geom acc.current.geom := by
        by_contra hov
        exact absurd (h.overlap a ha hac hov) (List.not_mem_nil a)
      rw [hbeq]
      exact this
    · exact h.others a ha b hb hac hbc hne

theorem RendererState.ensure_layer (s : RendererState) :
    s.ensureSpatialIndex.layer = s.layer := by
  unfold RendererState.ensureSpatialIndex
  split <;> rfl

theorem RendererState.ensure_nextId (s : RendererState) :
    s.ensureSpatialIndex.nextId = s.nextId := by
  unfold RendererState.ensureSpatialIndex
  split <;> rfl

theorem RendererState.boxOfD_eq {g : Geom} {b : Box} (h : boxOf g = some b) :
    RendererState.boxOfD g = b := by
  simp [RendererState.boxOfD, h]

/-- Query completeness: a live region sharing a point with the probe geometry
is returned by `queryByBounds` around the probe's bounds (accurate clean
index, unique ids). -/
theorem queryByBounds_complete {s : RendererState} (hd : s.indexDirty = false)
    (hacc : IndexAccurate s) (hn : (s.layer.map Region.id).Nodup)
    {r : Region} (hr : r ∈ s.layer) {g : Geom} {p : Pt}
    (hpr : p ∈ r.geom) (hpg : p ∈ g) :
    r ∈ (s.queryByBounds (RendererState.boxOfD g) 2).2 := by
  obtain ⟨br, hbr, hr1, hr2, hr3, hr4⟩ := mem_boxOf hpr
  obtain ⟨bg, hbg, hg1, hg2, hg3, hg4⟩ := mem_boxOf hpg
  have hbrD : RendererState.boxOfD r.geom = br := RendererState.boxOfD_eq hbr
  have hbgD : RendererState.boxOfD g = bg := RendererState.boxOfD_eq hbg
  have hint : ((RendererState.boxOfD g).expandBy 2).intersects
      (RendererState.boxOfD r.geom) = true := by
    rw [hbrD, hbgD]
    apply Box.intersects_expandBy (by norm_num)
    simp only [Box.intersects, Bool.and_eq_true, decide_eq_true_eq]
    refine ⟨⟨⟨?_, ?_⟩, ?_⟩, ?_⟩ <;> omega
  have hentry : (r.id, RendererState.boxOfD r.geom) ∈ s.index := hacc.1 r hr
  show r ∈ ((s.ensureSpatialIndex.index.filter
      (fun e => ((RendererState.boxOfD g).expandBy 2).intersects e.2)).filterMap
      (fun e => s.ensureSpatialIndex.layer.find? (fun x => x.id = e.1)))
  rw [RendererState.ensure_eq_of_not_dirty hd]
  apply List.mem_filterMap.mpr
  refine ⟨(r.id, RendererState.boxOfD r.geom), ?_, ?_⟩
  · exact List.mem_filter.mpr ⟨hentry, hint⟩
  · exact find?_id_eq_of_mem hn hr

/-- C1's `addPath` case: adding a single traced geometry to a pairwise
disjoint, well-formed layer yields a pairwise disjoint layer. -/
theorem addPath_single_pairwise (s₀ : RendererState) (g : Geom) (c : ℕ)
    (hn : (s₀.layer.map Region.id).Nodup)
    (hfresh : ∀ r ∈ s₀.layer, r.id < s₀.nextId)
    (hacc : s₀.indexDirty = false → IndexAccurate s₀)
    (hdisj : s₀.layer.Pairwise (fun a b => Disjoint a.geom b.geom)) :
    (s₀.addPath KExact [g] c).layer.Pairwise
      (fun a b => Disjoint a.geom b.geom) := by
  have h₁d : s₀.ensureSpatialIndex.indexDirty = false :=
    RendererState.ensure_dirty s₀
  have h₁a : IndexAccurate s₀.ensureSpatialIndex :=
    RendererState.ensure_accurate s₀ hacc
  have h₁L := RendererState.ensure_layer s₀
  have h₁n := RendererState.ensure_nextId s₀
  set s₁ := s₀.ensureSpatialIndex with hs₁
  set newR : Region := ⟨s₁.nextId, c, g⟩ with hnewR
  set s₂ : RendererState :=
    { s₁ with layer := s₁.layer ++ [newR],
              index := RendererState.makeIndexEntry newR :: s₁.index,
              nextId := s₁.nextId + 1 } with hs₂
  have h₂d : s₂.indexDirty = false := h₁d
  have h₂a : IndexAccurate s₂ := accurate_append_shape h₁a newR _
  have h₂n : (s₂.layer.map Region.id).Nodup := by
    show ((s₁.layer ++ [newR]).map Region.id).Nodup
    rw [List.map_append, List.map_singleton, List.nodup_append]
    refine ⟨by rw [h₁L]; exact hn, List.nodup_singleton _, ?_⟩
    intro x hx
    obtain ⟨r, hr, rfl⟩ := List.mem_map.mp hx
    rw [h₁L] at hr
    simp only [List.mem_singleton]
    show r.id ≠ newR.id
    rw [hnewR, h₁n]
    exact Nat.ne_of_lt (hfresh r hr)
  have heq : s₀.addPath KExact [g] c =
      RendererState.mergeAll KExact
        ((RendererState.collectCandidates s₂ [newR]).1.layerOrderSorted
          (RendererState.collectCandidates s₂ [newR]).2)
        [newR] (RendererState.collectCandidates s₂ [newR]).1 := by
    show (let sₑ := s₀.ensureSpatialIndex
      if ([g] : List Geom).isEmpty then sₑ
      else
        let imported := sₑ.importRegions [g] c
        let newPaths := imported.2
        let q := RendererState.collectCandidates imported.1 newPaths
        let existing := q.1.layerOrderSorted q.2
        RendererState.mergeAll KExact existing newPaths q.1) = _
    rfl
  rw [heq, collectCandidates_fst s₂ [newR] h₂d]
  set q2 := (RendererState.collectCandidates s₂ [newR]).2 with hq2
  set existing := s₂.layerOrderSorted q2 with hex
  have hexsub : ∀ e ∈ existing, e ∈ s₂.layer := by
    intro e he
    exact List.mem_of_mem_filter he
  have hInv : MergeInv ⟨newR, s₂⟩ existing := by
    refine MergeInv.mk h₂n (List.mem_append_right _ (List.mem_singleton.mpr rfl))
      ?_ ?_ ?_ ?_ ?_ ?_
    · -- others
      intro a ha b hb hac hbc hab
      have ha' : a ∈ s₀.layer := by
        rcases List.mem_append.mp ha with h' | h'
        · rwa [h₁L] at h'
        · exact absurd (congrArg Region.id (List.mem_singleton.mp h')) hac
      have hb' : b ∈ s₀.layer := by
        rcases List.mem_append.mp hb with h' | h'
        · rwa [h₁L] at h'
        · exact absurd (congrArg Region.id (List.mem_singleton.mp h')) hbc
      exact allDisjoint_of_pairwise hdisj a ha' b hb' hab
    · -- overlap completeness via the spatial index
      intro r hr hne hov
      have hr' : r ∈ s₀.layer := by
        rcases List.mem_append.mp hr with h' | h'
        · rwa [h₁L] at h'
        · exact absurd (congrArg Region.id (List.mem_singleton.mp h')) hne
      obtain ⟨p, hpr, hpg⟩ := Finset.not_disjoint_iff.mp hov
      have hquery : r ∈ (s₂.queryByBounds
          (RendererState.boxOfD newR.geom) 2).2 :=
        queryByBounds_complete h₂d h₂a h₂n hr hpr hpg
      have hq2mem : r ∈ q2 := by
        show r ∈ (RendererState.collectCandidates s₂ [newR]).2
        show r ∈ [] ++ ((s₂.queryByBounds (RendererState.boxOfD newR.geom)
          2).2.filter (fun h => ¬ [newR].any (fun x => x.id = h.id)))
        rw [List.nil_append]
        refine List.mem_filter.mpr ⟨hquery, ?_⟩
        simp only [List.any_cons, List.any_nil, Bool.or_false,
          decide_eq_true_eq]
        simpa using Ne.symm hne
      refine List.mem_filter.mpr ⟨hr, ?_⟩
      simp only [List.any_eq_true, decide_eq_true_eq]
      exact ⟨r, hq2mem, rfl⟩
    · -- liveVal
      intro e he r hr hrid
      exact eq_of_mem_of_id_eq h₂n hr (hexsub e he) hrid
    · -- freshL
      intro r hr
      show r.id < s₁.nextId + 1
      rcases List.mem_append.mp hr with h' | h'
      · rw [h₁L] at h'
        rw [h₁n]
        exact Nat.lt_succ_of_lt (hfresh r h')
      · rw [List.mem_singleton.mp h']
        exact Nat.lt_succ_self _
    · -- freshS
      intro e he
      show e.id < s₁.nextId + 1
      have := hexsub e he
      rcases List.mem_append.mp this with h' | h'
      · rw [h₁L] at h'
        rw [h₁n]
        exact Nat.lt_succ_of_lt (hfresh e h')
      · rw [List.mem_singleton.mp h']
        exact Nat.lt_succ_self _
    · -- freshC
      exact Nat.lt_succ_self _
  exact merge_final_pairwise (mergeInv_fold existing ⟨newR, s₂⟩ hInv)

/-- Query soundness: every query hit is a live layer value. -/
theorem queryByBounds_mem {s : RendererState} {b : Box} {p : ℤ} {r : Region}
    (h : r ∈ (s.queryByBounds b p).2) : r ∈ s.ensureSpatialIndex.layer := by
  obtain ⟨e, _, he⟩ := List.mem_filterMap.mp h
  exact List.mem_of_find?_eq_some he

/-- The loop invariant of `subtractPathFromExisting` under the exact kernel:
the eraser only shrinks or removes regions, so pairwise disjointness is
preserved directly along the candidate suffix `S`. -/
structure SubInv (st : RendererState) (S : List Region) : Prop where
  nodup : (st.layer.map Region.id).Nodup
  disj : st.layer.Pairwise (fun a b => Disjoint a.geom b.geom)
  liveVal : ∀ e ∈ S, ∀ r ∈ st.layer, r.id = e.id → r = e
  freshL : ∀ r ∈ st.layer, r.id < st.nextId
  freshS : ∀ e ∈ S, e.id < st.nextId

/-- One subtract step under the exact kernel preserves the invariant. -/
theorem subInv_step {g : Geom} {st : RendererState} {e : Region}
    {S : List Region} (h : SubInv st (e :: S)) :
    SubInv (subtractStep KExact g st e) S := by
  have htail : SubInv st S :=
    ⟨h.nodup, h.disj,
     fun e' he' => h.liveVal e' (List.mem_cons_of_mem _ he'),
     h.freshL, fun e' he' => h.freshS e' (List.mem_cons_of_mem _ he')⟩
  by_cases hskip : (st.isLive e.id && pathsCollide g e.geom) = true
  · have hl : st.isLive e.id = true := by
      simpa using (Bool.and_eq_true _ _ |>.mp hskip).1
    have hc : pathsCollide g e.geom = true := by
      simpa using (Bool.and_eq_true _ _ |>.mp hskip).2
    by_cases hdeg : e.geom \ g = ∅
    · rw [subtractStep_degenerate hl hc (Or.inl (by simp [KExact, hdeg]))]
      split
      · refine SubInv.mk ?_ ?_ ?_ ?_ ?_
        · exact List.Nodup.sublist
            (List.Sublist.map Region.id (List.filter_sublist _)) h.nodup
        · exact List.Pairwise.sublist (List.filter_sublist _) h.disj
        · intro e' he' r hr hrid
          exact h.liveVal e' (List.mem_cons_of_mem _ he') r
            (List.mem_of_mem_filter hr) hrid
        · intro r hr
          exact h.freshL r (List.mem_of_mem_filter hr)
        · intro e' he'
          exact h.freshS e' (List.mem_cons_of_mem _ he')
      · exact htail
    · rw [subtractStep_cut hl hc rfl hdeg]
      set d := e.geom \ g with hd_def
      set cleaned : Region := ⟨st.nextId, e.color, d⟩ with hcl_def
      have hmap : ∀ r', r' ∈ st.layer.map
          (fun x => if x.id = e.id then cleaned else x) →
          (r' = cleaned ∧ ∃ x ∈ st.layer, x.id = e.id) ∨
          (r' ∈ st.layer ∧ r'.id ≠ e.id) := by
        intro r' hr'
        obtain ⟨x, hx, hxe⟩ := List.mem_map.mp hr'
        by_cases hxi : x.id = e.id
        · rw [if_pos hxi] at hxe
          exact Or.inl ⟨hxe.symm, x, hx, hxi⟩
        · rw [if_neg hxi] at hxe
          exact Or.inr ⟨hxe ▸ hx, hxe ▸ hxi⟩
      refine SubInv.mk ?_ ?_ ?_ ?_ ?_
      ·
        have hcomp : (st.layer.map
            (fun x => if x.id = e.id then cleaned else x)).map Region.id =
            (st.layer.map Region.id).map
              (fun x => if x = e.id then st.nextId else x) := by
          rw [List.map_map, List.map_map]
          refine List.map_congr_left ?_
          intro x _
          by_cases hxi : x.id = e.id
          · simp [Function.comp, hxi, hcl_def]
          · simp [Function.comp, hxi]
        rw [hcomp]
        refine nodup_map_replace_id _ e.id st.nextId h.nodup ?_
        intro x hx
        obtain ⟨r, hr, rfl⟩ := List.mem_map.mp hx
        exact h.freshL r hr
      ·
        rw [List.pairwise_map]
        refine List.Pairwise.imp_of_mem ?_ h.disj
        intro a b ha hb hab
        have hsub : ∀ x ∈ st.layer,
            ((if x.id = e.id then cleaned else x) : Region).geom ⊆ x.geom := by
          intro x hx
          by_cases hxi : x.id = e.id
          · rw [if_pos hxi]
            have hxe : x = e := h.liveVal e (List.mem_cons_self e S) x hx hxi
            show d ⊆ x.geom
            rw [hxe, hd_def]
            exact Finset.sdiff_subset
          · rw [if_neg hxi]
        exact Finset.disjoint_of_subset_left (hsub a ha)
          (Finset.disjoint_of_subset_right (hsub b hb) hab)
      ·
        intro e' he' r hr hrid
        rcases hmap r hr with ⟨rfl, _⟩ | ⟨hrm, _⟩
        · exact absurd hrid.symm
            (Nat.ne_of_lt (h.freshS e' (List.mem_cons_of_mem _ he')))
        · exact h.liveVal e' (List.mem_cons_of_mem _ he') r hrm hrid
      ·
        intro r hr
        rcases hmap r hr with ⟨rfl, _⟩ | ⟨hrm, _⟩
        · exact Nat.lt_succ_self _
        · exact Nat.lt_succ_of_lt (h.freshL r hrm)
      ·
        intro e' he'
        exact Nat.lt_succ_of_lt (h.freshS e' (List.mem_cons_of_mem _ he'))
  · rw [subtractStep_skip (by simpa using hskip)]
    exact htail

/-- The whole subtract fold preserves the invariant. -/
theorem subInv_fold :
    ∀ (S : List Region) (g : Geom) (st : RendererState), SubInv st S →
      SubInv (S.foldl (subtractStep KExact g) st) [] := by
  intro S
  induction S with
  | nil => intro g st h; exact h
  | cons e tl ih =>
    intro g st h
    rw [List.foldl_cons]
    exact ih g _ (subInv_step h)

/-- C1's `subtractPath` case: erasing only shrinks regions, so a pairwise
disjoint, well-formed layer stays pairwise disjoint (no index accuracy is
needed: query soundness suffices). -/
theorem subtractPath_pairwise (s₀ : RendererState) (gs : List Geom)
    (hn : (s₀.layer.map Region.id).Nodup)
    (hfresh : ∀ r ∈ s₀.layer, r.id < s₀.nextId)
    (hdisj : s₀.layer.Pairwise (fun a b => Disjoint a.geom b.geom)) :
    (s₀.subtractPath KExact gs).layer.Pairwise
      (fun a b => Disjoint a.geom b.geom) := by
  have hstep : ∀ (l : List Geom) (s : RendererState),
      (s.layer.map Region.id).Nodup →
      (∀ r ∈ s.layer, r.id < s.nextId) →
      s.layer.Pairwise (fun a b => Disjoint a.geom b.geom) →
      ((l.foldl (fun s g =>
          let q := s.queryByBounds (RendererState.boxOfD g) 2
          subtractPathFromExisting KExact g q.2 q.1) s).layer.map
            Region.id).Nodup ∧
      (∀ r ∈ (l.foldl (fun s g =>
          let q := s.queryByBounds (RendererState.boxOfD g) 2
          subtractPathFromExisting KExact g q.2 q.1) s).layer,
        r.id < (l.foldl (fun s g =>
          let q := s.queryByBounds (RendererState.boxOfD g) 2
          subtractPathFromExisting KExact g q.2 q.1) s).nextId) ∧
      (l.foldl (fun s g =>
          let q := s.queryByBounds (RendererState.boxOfD g) 2
          subtractPathFromExisting KExact g q.2 q.1) s).layer.Pairwise
        (fun a b => Disjoint a.geom b.geom) := by
    intro l
    induction l with
    | nil => intro s h1 h2 h3; exact ⟨h1, h2, h3⟩
    | cons g tl ih =>
      intro s h1 h2 h3
      rw [List.foldl_cons]
      have hens : ∀ r ∈ s.ensureSpatialIndex.layer, r.id <
          s.ensureSpatialIndex.nextId := by
        rw [RendererState.ensure_layer, RendererState.ensure_nextId]
        exact h2
      have hn₁ : (s.ensureSpatialIndex.layer.map Region.id).Nodup := by
        rw [RendererState.ensure_layer]; exact h1
      have hd₁ : s.ensureSpatialIndex.layer.Pairwise
          (fun a b => Disjoint a.geom b.geom) := by
        rw [RendererState.ensure_layer]; exact h3
      have hinv : SubInv (s.queryByBounds (RendererState.boxOfD g) 2).1
          (s.queryByBounds (RendererState.boxOfD g) 2).2 := by
        refine SubInv.mk hn₁ hd₁ ?_ hens ?_
        · intro e he r hr hrid
          exact eq_of_mem_of_id_eq hn₁ hr (queryByBounds_mem he) hrid
        · intro e he
          exact hens e (queryByBounds_mem he)
      have hout := subInv_fold _ g _ hinv
      exact ih _ hout.nodup hout.freshL hout.disj
  unfold RendererState.subtractPath
  split
  · rw [RendererState.ensure_layer]; exact hdisj
  · have h1 : (s₀.ensureSpatialIndex.layer.map Region.id).Nodup := by
      rw [RendererState.ensure_layer]; exact hn
    have h2 : ∀ r ∈ s₀.ensureSpatialIndex.layer, r.id <
        s₀.ensureSpatialIndex.nextId := by
      rw [RendererState.ensure_layer, RendererState.ensure_nextId]
      exact hfresh
    have h3 : s₀.ensureSpatialIndex.layer.Pairwise
        (fun a b => Disjoint a.geom b.geom) := by
      rw [RendererState.ensure_layer]; exact hdisj
    exact (hstep gs s₀.ensureSpatialIndex h1 h2 h3).2.2

/-- Upserting a live item's entry keeps the index accurate. -/
theorem accurate_upsert {s : RendererState} (h : IndexAccurate s)
    (hn : (s.layer.map Region.id).Nodup) {item : Region}
    (hitem : item ∈ s.layer) : IndexAccurate (s.indexUpsert item) := by
  constructor
  · intro r hr
    by_cases hri : r.id = item.id
    · have : r = item := eq_of_mem_of_id_eq hn hr hitem hri
      rw [this]
      exact List.mem_cons_self _ _
    · refine List.mem_cons_of_mem _ (List.mem_filter.mpr ⟨h.1 r hr, ?_⟩)
      simp [RendererState.makeIndexEntry, hri]
  · intro e he
    rcases List.mem_cons.mp he with rfl | he'
    · exact ⟨item, hitem, rfl⟩
    · exact h.2 e (List.mem_of_mem_filter he')

/-- C1's `placeSelection` case: dropping a moved region back onto a pairwise
disjoint, well-formed layer (the moved item being a layer child) yields a
pairwise disjoint layer. -/
theorem placeSelection_pairwise (s₀ : RendererState) (item : Region)
    (hn : (s₀.layer.map Region.id).Nodup)
    (hfresh : ∀ r ∈ s₀.layer, r.id < s₀.nextId)
    (hacc : s₀.indexDirty = false → IndexAccurate s₀)
    (hitem : item ∈ s₀.layer)
    (hdisj : s₀.layer.Pairwise (fun a b => Disjoint a.geom b.geom)) :
    (s₀.placeSelection KExact item).layer.Pairwise
      (fun a b => Disjoint a.geom b.geom) := by
  set s₂ := if ¬ s₀.ensureSpatialIndex.indexDirty then
      s₀.ensureSpatialIndex.indexUpsert item else s₀.ensureSpatialIndex
    with hs₂def
  have heq : s₀.placeSelection KExact item =
      (mergePathWithExisting KExact item
        ((s₂.queryByBounds (RendererState.boxOfD item.geom) 2).1.layerOrderSorted
          ((s₂.queryByBounds (RendererState.boxOfD item.geom) 2).2.filter
            (fun x => x.id ≠ item.id)))
        (s₂.queryByBounds (RendererState.boxOfD item.geom) 2).1).st := rfl
  have hs₂ : s₂ = s₀.ensureSpatialIndex.indexUpsert item := by
    rw [hs₂def]
    simp [RendererState.ensure_dirty]
  have hULayer : (s₀.ensureSpatialIndex.indexUpsert item).layer = s₀.layer := by
    rw [show (s₀.ensureSpatialIndex.indexUpsert item).layer =
      s₀.ensureSpatialIndex.layer from rfl, RendererState.ensure_layer]
  have hUNext : (s₀.ensureSpatialIndex.indexUpsert item).nextId = s₀.nextId := by
    rw [show (s₀.ensureSpatialIndex.indexUpsert item).nextId =
      s₀.ensureSpatialIndex.nextId from rfl, RendererState.ensure_nextId]
  have hUDirty : (s₀.ensureSpatialIndex.indexUpsert item).indexDirty = false := by
    rw [show (s₀.ensureSpatialIndex.indexUpsert item).indexDirty =
      s₀.ensureSpatialIndex.indexDirty from rfl]
    exact RendererState.ensure_dirty s₀
  have hUn : ((s₀.ensureSpatialIndex.indexUpsert item).layer.map
      Region.id).Nodup := by rw [hULayer]; exact hn
  have hUitem : item ∈ (s₀.ensureSpatialIndex.indexUpsert item).layer := by
    rw [hULayer]; exact hitem
  have hUacc : IndexAccurate (s₀.ensureSpatialIndex.indexUpsert item) := by
    refine accurate_upsert (s₀.ensure_accurate hacc) ?_ ?_
    · rw [RendererState.ensure_layer]; exact hn
    · rw [RendererState.ensure_layer]; exact hitem
  rw [heq, hs₂, RendererState.queryByBounds_fst_of_not_dirty hUDirty]
  set sU := s₀.ensureSpatialIndex.indexUpsert item with hsU
  set cands := (sU.queryByBounds (RendererState.boxOfD item.geom) 2).2.filter
    (fun x => x.id ≠ item.id) with hcands
  set existing := sU.layerOrderSorted cands with hex
  have hexsub : ∀ e ∈ existing, e ∈ sU.layer := by
    intro e he
    exact List.mem_of_mem_filter he
  have hInv : MergeInv ⟨item, sU⟩ existing := by
    refine MergeInv.mk hUn hUitem ?_ ?_ ?_ ?_ ?_ ?_
    · -- others
      intro a ha b hb _ _ hab
      rw [hULayer] at ha hb
      exact allDisjoint_of_pairwise hdisj a ha b hb hab
    · -- overlap completeness via the spatial index
      intro r hr hne hov
      obtain ⟨p, hpr, hpg⟩ := Finset.not_disjoint_iff.mp hov
      have hquery : r ∈ (sU.queryByBounds
          (RendererState.boxOfD item.geom) 2).2 :=
        queryByBounds_complete hUDirty hUacc hUn hr hpr hpg
      have hcmem : r ∈ cands := by
        rw [hcands]
        exact List.mem_filter.mpr ⟨hquery, by simp [hne]⟩
      refine List.mem_filter.mpr ⟨hr, ?_⟩
      simp only [List.any_eq_true, decide_eq_true_eq]
      exact ⟨r, hcmem, rfl⟩
    · -- liveVal
      intro e he r hr hrid
      exact eq_of_mem_of_id_eq hUn hr (hexsub e he) hrid
    · -- freshL
      intro r hr
      rw [hULayer] at hr
      rw [hUNext]
      exact hfresh r hr
    · -- freshS
      intro e he
      have := hexsub e he
      rw [hULayer] at this
      rw [hUNext]
      exact hfresh e this
    · -- freshC
      rw [hUNext]
      exact hfresh item hitem
  exact merge_final_pairwise (mergeInv_fold existing ⟨item, sU⟩ hInv)

/-! ### Structural lemmas about `flatten` -/

theorem colorsInOrder_aux_nodup {cs : List ℕ} :
    ∀ {acc : List ℕ}, acc.Nodup →
      (cs.foldl (fun acc c => if c ∈ acc then acc else acc ++ [c]) acc).Nodup := by
  induction cs with
  | nil => intro acc h; exact h
  | cons c tl ih =>
    intro acc h
    simp only [List.foldl_cons]
    split
    · exact ih h
    · next hc => exact ih (by simp [List.nodup_append, h, hc])

theorem colorsInOrder_nodup (L : List Region) : (colorsInOrder L).Nodup :=
  colorsInOrder_aux_nodup List.nodup_nil

theorem colorsInOrder_aux_mem {cs : List ℕ} :
    ∀ {acc : List ℕ} {x : ℕ},
      x ∈ cs.foldl (fun acc c => if c ∈ acc then acc else acc ++ [c]) acc ↔
        x ∈ acc ∨ x ∈ cs := by
  induction cs with
  | nil => intro acc x; simp
  | cons c tl ih =>
    intro acc x
    simp only [List.foldl_cons]
    split
    · next hc =>
      rw [ih, List.mem_cons]
      constructor
      · rintro (h | h)
        · exact Or.inl h
        · exact Or.inr (Or.inr h)
      · rintro (h | rfl | h)
        · exact Or.inl h
        · exact Or.inl hc
        · exact Or.inr h
    · next hc =>
      rw [ih]
      simp only [List.mem_append, List.mem_singleton, List.mem_cons]
      tauto

/-- A color appears in `colorsInOrder L` exactly when some region of `L`
carries it. -/
theorem mem_colorsInOrder {L : List Region} {c : ℕ} :
    c ∈ colorsInOrder L ↔ ∃ r ∈ L, r.color = c := by
  unfold colorsInOrder
  rw [colorsInOrder_aux_mem]
  simp [eq_comm]

/-- The per-color union keeps the color of the group's first member. -/
theorem uniteColorGroup_color (K : BoolKernel) (p₀ : Region)
    (rest : List Region) (nid : ℕ) :
    (uniteColorGroup K (p₀ :: rest) nid).1.color = p₀.color := by
  unfold uniteColorGroup
  have key : ∀ (l : List Region) (acc : Region × ℕ),
      ((l.foldl
        (fun (acc : Region × ℕ) p =>
          match normalizeBooleanResult (K.unite acc.1.geom p.geom) with
          | some united =>
            if united = ∅ then acc
            else (⟨acc.2, acc.1.color, united⟩, acc.2 + 1)
          | none => acc)
        acc).1).color = acc.1.color := by
    intro l
    induction l with
    | nil => intro acc; rfl
    | cons p tl ih =>
      intro acc
      rw [List.foldl_cons, ih]
      cases hk : K.unite acc.1.geom p.geom with
      | none => simp [normalizeBooleanResult, hk]
      | some u =>
        simp only [normalizeBooleanResult, hk]
        split <;> rfl
  exact key rest (p₀, nid)

/-- Invariant of `flatten`'s `colorPaths` map: one entry per color (keys are
nodup) and each entry's region carries its key color. -/
def FlattenCP (cp : List (ℕ × Region)) : Prop :=
  (cp.map Prod.fst).Nodup ∧ ∀ p ∈ cp, p.2.color = p.1

theorem flattenCutStep_goodcp {K : BoolKernel} {top : Region}
    {cp : List (ℕ × Region)} {nid : ℕ} {c : ℕ} (h : FlattenCP cp) :
    FlattenCP (flattenCutStep K top cp nid c).1 := by
  cases hf : cp.find? (fun p => p.1 = c) with
  | none =>
    simp only [flattenCutStep, hf]
    exact h
  | some q =>
    obtain ⟨q1, bot⟩ := q
    have hq1 : q1 = c := by simpa using List.find?_some hf
    have hqmem : (q1, bot) ∈ cp := List.mem_of_find?_eq_some hf
    have hbotc : bot.color = c := hq1 ▸ h.2 _ hqmem
    have hfilter : FlattenCP (cp.filter (fun p => p.1 ≠ c)) := by
      refine ⟨?_, fun p hp => h.2 p (List.mem_of_mem_filter hp)⟩
      exact List.Nodup.sublist
        (List.Sublist.map Prod.fst (List.filter_sublist cp)) h.1
    simp only [flattenCutStep, hf]
    cases hs : K.subtract bot.geom top.geom with
    | none =>
      simp only [normalizeBooleanResult, hs]
      split
      · exact hfilter
      · exact h
    | some diff =>
      simp only [normalizeBooleanResult, hs]
      by_cases hd : diff = ∅
      · rw [if_pos hd]
        split
        · exact hfilter
        · exact h
      · rw [if_neg hd]
        constructor
        · have : ((cp.map fun p =>
              if p.1 = c then (c, (⟨nid, bot.color, diff⟩ : Region)) else p).map
                Prod.fst) = cp.map Prod.fst := by
            rw [List.map_map]
            refine List.map_congr_left ?_
            intro p _
            by_cases hp : p.1 = c
            · simp [hp]
            · simp [hp]
          rw [this]
          exact h.1
        · intro p hp
          obtain ⟨x, hx, rfl⟩ := List.mem_map.mp hp
          by_cases hxc : x.1 = c
          · simp [hxc, hbotc]
          · simpa [hxc] using h.2 x hx

theorem flattenTopStep_goodcp {K : BoolKernel} {zOrder : List ℕ}
    {entries : List (ℕ × Box)} {acc : List (ℕ × Region) × ℕ} {ti : ℕ}
    (h : FlattenCP acc.1) : FlattenCP (flattenTopStep K zOrder entries acc ti).1 := by
  cases hz : zOrder[ti]? with
  | none =>
    simp only [flattenTopStep, hz]
    exact h
  | some topColor =>
    cases hf : acc.1.find? (fun p => p.1 = topColor) with
    | none =>
      simp only [flattenTopStep, hz, hf]
      exact h
    | some q =>
      obtain ⟨q1, topPath⟩ := q
      simp only [flattenTopStep, hz, hf]
      have key : ∀ (l : List (ℕ × Box)) (a : List (ℕ × Region) × ℕ),
          FlattenCP a.1 →
          FlattenCP ((l.foldl
            (fun (a : List (ℕ × Region) × ℕ) e =>
              if zOrder.indexOf e.1 < ti then
                flattenCutStep K topPath a.1 a.2 e.1
              else a) a).1) := by
        intro l
        induction l with
        | nil => intro a ha; exact ha
        | cons e tl ih =>
          intro a ha
          rw [List.foldl_cons]
          apply ih
          split
          · exact flattenCutStep_goodcp ha
          · exact ha
      exact key _ _ h

theorem flattenUnite_fold_fst (K : BoolKernel) (L : List Region) :
    ∀ (zs : List ℕ) (acc : List (ℕ × Region) × ℕ),
      ((zs.foldl (flattenUniteStep K L) acc).1).map Prod.fst =
        acc.1.map Prod.fst ++ zs := by
  intro zs
  induction zs with
  | nil => intro acc; simp
  | cons c tl ih =>
    intro acc
    rw [List.foldl_cons, ih]
    simp [flattenUniteStep]

theorem flattenUnite_fold_colors (K : BoolKernel) (L : List Region) :
    ∀ (zs : List ℕ) (acc : List (ℕ × Region) × ℕ),
      (∀ p ∈ acc.1, p.2.color = p.1) →
      (∀ c ∈ zs, ∃ r ∈ L, r.color = c) →
      ∀ p ∈ (zs.foldl (flattenUniteStep K L) acc).1, p.2.color = p.1 := by
  intro zs
  induction zs with
  | nil => intro acc hacc _; exact hacc
  | cons c tl ih =>
    intro acc hacc hex
    rw [List.foldl_cons]
    refine ih _ ?_ (fun c' hc' => hex c' (List.mem_cons_of_mem _ hc'))
    intro p hp
    simp only [flattenUniteStep, List.mem_append, List.mem_singleton] at hp
    rcases hp with hp | rfl
    · exact hacc p hp
    · obtain ⟨r, hr, hrc⟩ := hex c (List.mem_cons_self _ _)
      have hrmem : r ∈ L.filter (fun r => r.color = c) :=
        List.mem_filter.mpr ⟨hr, by simp [hrc]⟩
      cases hg : L.filter (fun r => r.color = c) with
      | nil => rw [hg] at hrmem; exact absurd hrmem (List.not_mem_nil r)
      | cons p₀ rest =>
        have hp₀ : p₀.color = c := by
          have : p₀ ∈ L.filter (fun r => r.color = c) := by
            rw [hg]; exact List.mem_cons_self _ _
          simpa using (List.mem_filter.mp this).2
        simp only [hg]
        rw [uniteColorGroup_color]
        exact hp₀

/-- After `flatten`, the remaining layer holds at most one region per color:
the color list of the layer has no duplicates. -/
theorem flatten_colors_nodup (K : BoolKernel) (s : RendererState) :
    ((flatten K s).layer.map Region.color).Nodup := by
  unfold flatten
  split
  · next h2 =>
    rcases hL : s.layer with _ | ⟨a, _ | ⟨b, tl⟩⟩
    · simp [hL]
    · simp [hL]
    · rw [hL] at h2; simp at h2; omega
  · next h2 =>
    have hcp1 : FlattenCP ((colorsInOrder s.layer).foldl
        (flattenUniteStep K s.layer) ([], s.nextId)).1 := by
      constructor
      · rw [flattenUnite_fold_fst]
        simpa using colorsInOrder_nodup s.layer
      · refine flattenUnite_fold_colors K s.layer _ _ (by simp) ?_
        intro c hc
        exact mem_colorsInOrder.mp hc
    have hcp3 : FlattenCP ((List.range (colorsInOrder s.layer).length).reverse.foldl
        (flattenTopStep K (colorsInOrder s.layer)
          (((colorsInOrder s.layer).foldl (flattenUniteStep K s.layer)
            ([], s.nextId)).1.map
              (fun p => (p.1, RendererState.boxOfD p.2.geom))))
        (((colorsInOrder s.layer).foldl (flattenUniteStep K s.layer)
            ([], s.nextId)).1,
         ((colorsInOrder s.layer).foldl (flattenUniteStep K s.layer)
            ([], s.nextId)).2)).1 := by
      have key : ∀ (l : List ℕ) (a : List (ℕ × Region) × ℕ), FlattenCP a.1 →
          FlattenCP ((l.foldl (flattenTopStep K (colorsInOrder s.layer)
            (((colorsInOrder s.layer).foldl (flattenUniteStep K s.layer)
              ([], s.nextId)).1.map
                (fun p => (p.1, RendererState.boxOfD p.2.geom)))) a).1) := by
        intro l
        induction l with
        | nil => intro a ha; exact ha
        | cons ti tl ih =>
          intro a ha
          rw [List.foldl_cons]
          exact ih _ (flattenTopStep_goodcp ha)
      exact key _ _ hcp1
    have : ∀ (cp : List (ℕ × Region)), FlattenCP cp →
        ((cp.map Prod.snd).map Region.color).Nodup := by
      intro cp hcp
      rw [List.map_map]
      have : cp.map (Region.color ∘ Prod.snd) = cp.map Prod.fst :=
        List.map_congr_left (fun p hp => hcp.2 p hp)
      rw [this]
      exact hcp.1
    exact this _ hcp3

/-! ### Disjointness of `flatten`'s result under the exact kernel -/

/-- A cut leaves every other color's entry unchanged (result to source). -/
theorem flattenCutStep_mem_other {K : BoolKernel} {top : Region}
    {cp : List (ℕ × Region)} {nid : ℕ} {c : ℕ} :
    ∀ p ∈ (flattenCutStep K top cp nid c).1, p.1 ≠ c → p ∈ cp := by
  intro p hp hpc
  cases hf : cp.find? (fun q => q.1 = c) with
  | none =>
    simp only [flattenCutStep, hf] at hp
    exact hp
  | some q =>
    obtain ⟨q1, bot⟩ := q
    simp only [flattenCutStep, hf] at hp
    cases hs : K.subtract bot.geom top.geom with
    | none =>
      simp only [normalizeBooleanResult, hs] at hp
      split at hp
      · exact List.mem_of_mem_filter hp
      · exact hp
    | some diff =>
      simp only [normalizeBooleanResult, hs] at hp
      by_cases hd : diff = ∅
      · rw [if_pos hd] at hp
        split at hp
        · exact List.mem_of_mem_filter hp
        · exact hp
      · rw [if_neg hd] at hp
        obtain ⟨x, hx, hxe⟩ := List.mem_map.mp hp
        by_cases hxc : x.1 = c
        · rw [if_pos hxc] at hxe
          exact absurd (by rw [← hxe]) hpc
        · rw [if_neg hxc] at hxe
          exact hxe ▸ hx

/-- A cut leaves every other color's entry unchanged (source to result). -/
theorem flattenCutStep_keep_other {K : BoolKernel} {top : Region}
    {cp : List (ℕ × Region)} {nid : ℕ} {c : ℕ} :
    ∀ p ∈ cp, p.1 ≠ c → p ∈ (flattenCutStep K top cp nid c).1 := by
  intro p hp hpc
  cases hf : cp.find? (fun q => q.1 = c) with
  | none =>
    simp only [flattenCutStep, hf]
    exact hp
  | some q =>
    obtain ⟨q1, bot⟩ := q
    simp only [flattenCutStep, hf]
    cases hs : K.subtract bot.geom top.geom with
    | none =>
      simp only [normalizeBooleanResult, hs]
      split
      · exact List.mem_filter.mpr ⟨hp, by simp [hpc]⟩
      · exact hp
    | some diff =>
      simp only [normalizeBooleanResult, hs]
      by_cases hd : diff = ∅
      · rw [if_pos hd]
        split
        · exact List.mem_filter.mpr ⟨hp, by simp [hpc]⟩
        · exact hp
      · rw [if_neg hd]
        refine List.mem_map.mpr ⟨p, hp, ?_⟩
        rw [if_neg hpc]

/-- Under the exact kernel a cut only shrinks (or removes) entries. -/
theorem flattenCutStep_shrink {top : Region} {cp : List (ℕ × Region)}
    {nid : ℕ} {c : ℕ} :
    ∀ p ∈ (flattenCutStep KExact top cp nid c).1,
      ∃ q ∈ cp, p.1 = q.1 ∧ p.2.geom ⊆ q.2.geom := by
  intro p hp
  cases hf : cp.find? (fun q => q.1 = c) with
  | none =>
    simp only [flattenCutStep, hf] at hp
    exact ⟨p, hp, rfl, subset_rfl⟩
  | some q =>
    obtain ⟨q1, bot⟩ := q
    have hq1 : q1 = c := by simpa using List.find?_some hf
    have hqmem : (q1, bot) ∈ cp := List.mem_of_find?_eq_some hf
    have hs : KExact.subtract bot.geom top.geom =
        some (bot.geom \ top.geom) := rfl
    simp only [flattenCutStep, hf, normalizeBooleanResult, hs] at hp
    by_cases hd : bot.geom \ top.geom = ∅
    · rw [if_pos hd] at hp
      split at hp
      · exact ⟨p, List.mem_of_mem_filter hp, rfl, subset_rfl⟩
      · exact ⟨p, hp, rfl, subset_rfl⟩
    · rw [if_neg hd] at hp
      obtain ⟨x, hx, hxe⟩ := List.mem_map.mp hp
      by_cases hxc : x.1 = c
      · rw [if_pos hxc] at hxe
        refine ⟨(q1, bot), hqmem, ?_, ?_⟩
        · rw [← hxe, hq1]
        · rw [← hxe]
          exact Finset.sdiff_subset
      · rw [if_neg hxc] at hxe
        subst hxe
        exact ⟨_, hx, rfl, subset_rfl⟩

/-- Under the exact kernel, after cutting color `c` with `top`, the surviving
entry of color `c` (if any) is disjoint from `top`. -/
theorem flattenCutStep_cuts {top : Region} {cp : List (ℕ × Region)}
    {nid : ℕ} {c : ℕ} (h : FlattenCP cp) :
    ∀ p ∈ (flattenCutStep KExact top cp nid c).1, p.1 = c →
      Disjoint p.2.geom top.geom := by
  intro p hp hpc
  cases hf : cp.find? (fun q => q.1 = c) with
  | none =>
    simp only [flattenCutStep, hf] at hp
    have := List.find?_eq_none.mp hf p hp
    simp [hpc] at this
  | some q =>
    obtain ⟨q1, bot⟩ := q
    have hq1 : q1 = c := by simpa using List.find?_some hf
    have hqmem : (q1, bot) ∈ cp := List.mem_of_find?_eq_some hf
    have hs : KExact.subtract bot.geom top.geom =
        some (bot.geom \ top.geom) := rfl
    simp only [flattenCutStep, hf, normalizeBooleanResult, hs] at hp
    by_cases hd : bot.geom \ top.geom = ∅
    · rw [if_pos hd] at hp
      split at hp
      · exact absurd hpc (by simpa using (List.mem_filter.mp hp).2)
      · next hcov =>
        have hpbot : p = (q1, bot) :=
          List.inj_on_of_nodup_map h.1 hp hqmem (by rw [hpc, hq1])
        have hsub : bot.geom ⊆ top.geom :=
          Finset.sdiff_eq_empty_iff_subset.mp hd
        have hbe : bot.geom = ∅ := by
          by_contra hne
          exact hcov (likelyFullyCovered_of_subset
            (Finset.nonempty_iff_ne_empty.mpr hne) hsub)
        rw [hpbot]
        show Disjoint bot.geom top.geom
        rw [hbe]
        exact Finset.disjoint_empty_left _
    · rw [if_neg hd] at hp
      obtain ⟨x, hx, hxe⟩ := List.mem_map.mp hp
      by_cases hxc : x.1 = c
      · rw [if_pos hxc] at hxe
        have hpe : p.2 =
            (⟨nid, bot.color, bot.geom \ top.geom⟩ : Region) := by
          rw [← hxe]
        rw [hpe]
        exact Finset.sdiff_disjoint
      · rw [if_neg hxc] at hxe
        subst hxe
        exact absurd hpc hxc

/-- `flattenTopStep` when the top color resolves to a live entry: the inner
fold over the box hits. -/
theorem flattenTopStep_found {K : BoolKernel} {zOrder : List ℕ}
    {entries : List (ℕ × Box)} {acc : List (ℕ × Region) × ℕ} {ti : ℕ}
    {topColor q1 : ℕ} {topPath : Region}
    (hz : zOrder[ti]? = some topColor)
    (hf : acc.1.find? (fun p => p.1 = topColor) = some (q1, topPath)) :
    flattenTopStep K zOrder entries acc ti =
      (entries.filter
        (fun e => (RendererState.boxOfD topPath.geom).intersects e.2)).foldl
        (fun (a : List (ℕ × Region) × ℕ) e =>
          if zOrder.indexOf e.1 < ti then
            flattenCutStep K topPath a.1 a.2 e.1
          else a)
        acc := by
  simp only [flattenTopStep, hz, hf]

/-- The inner hits fold of `flattenTopStep` under the exact kernel: the
colorPaths invariant is preserved, the top entry survives untouched, every
entry only shrinks, and every strictly lower color that had a hit in the
list ends up disjoint from the top. -/
theorem flattenHits_fold (zOrder : List ℕ) (ti : ℕ) (topColor : ℕ)
    (topPath : Region)
    (hnz : ∀ c, zOrder.indexOf c < ti → c ≠ topColor) :
    ∀ (l : List (ℕ × Box)) (a : List (ℕ × Region) × ℕ),
      FlattenCP a.1 → (topColor, topPath) ∈ a.1 →
      FlattenCP ((l.foldl
        (fun (a : List (ℕ × Region) × ℕ) e =>
          if zOrder.indexOf e.1 < ti then
            flattenCutStep KExact topPath a.1 a.2 e.1
          else a) a).1) ∧
      (topColor, topPath) ∈ ((l.foldl
        (fun (a : List (ℕ × Region) × ℕ) e =>
          if zOrder.indexOf e.1 < ti then
            flattenCutStep KExact topPath a.1 a.2 e.1
          else a) a).1) ∧
      (∀ p ∈ ((l.foldl
        (fun (a : List (ℕ × Region) × ℕ) e =>
          if zOrder.indexOf e.1 < ti then
            flattenCutStep KExact topPath a.1 a.2 e.1
          else a) a).1),
        ∃ q ∈ a.1, p.1 = q.1 ∧ p.2.geom ⊆ q.2.geom) ∧
      (∀ p ∈ ((l.foldl
        (fun (a : List (ℕ × Region) × ℕ) e =>
          if zOrder.indexOf e.1 < ti then
            flattenCutStep KExact topPath a.1 a.2 e.1
          else a) a).1),
        (∃ e ∈ l, e.1 = p.1 ∧ zOrder.indexOf e.1 < ti) →
        Disjoint p.2.geom topPath.geom) := by
  intro l
  induction l with
  | nil =>
    intro a ha htop
    refine ⟨ha, htop, fun p hp => ⟨p, hp, rfl, subset_rfl⟩, ?_⟩
    intro p _ he
    obtain ⟨e, he, _⟩ := he
    exact absurd he (List.not_mem_nil e)
  | cons e tl ih =>
    intro a ha htop
    rw [List.foldl_cons]
    by_cases hidx : zOrder.indexOf e.1 < ti
    · rw [if_pos hidx]
      have hcuta : FlattenCP (flattenCutStep KExact topPath a.1 a.2 e.1).1 :=
        flattenCutStep_goodcp ha
      have hcuttop : (topColor, topPath) ∈
          (flattenCutStep KExact topPath a.1 a.2 e.1).1 :=
        flattenCutStep_keep_other (topColor, topPath) htop (hnz e.1 hidx).symm
      obtain ⟨ihA, ihTop, ihShrink, ihCut⟩ :=
        ih (flattenCutStep KExact topPath a.1 a.2 e.1) hcuta hcuttop
      refine ⟨ihA, ihTop, ?_, ?_⟩
      · intro p hp
        obtain ⟨q, hq, hpq, hsub⟩ := ihShrink p hp
        obtain ⟨q', hq', hqq', hsub'⟩ := flattenCutStep_shrink q hq
        exact ⟨q', hq', hpq.trans hqq', hsub.trans hsub'⟩
      · intro p hp hex
        obtain ⟨e', he', he'p, he'idx⟩ := hex
        rcases List.mem_cons.mp he' with rfl | he'tl
        · -- p was cut by this very hit
          obtain ⟨q, hq, hpq, hsub⟩ := ihShrink p hp
          have hqc : q.1 = e'.1 := by rw [← hpq, he'p]
          have hqdisj : Disjoint q.2.geom topPath.geom :=
            flattenCutStep_cuts ha q hq hqc
          exact Finset.disjoint_of_subset_left hsub hqdisj
        · exact ihCut p hp ⟨e', he'tl, he'p, he'idx⟩
    · rw [if_neg hidx]
      obtain ⟨ihA, ihTop, ihShrink, ihCut⟩ := ih a ha htop
      refine ⟨ihA, ihTop, ihShrink, ?_⟩
      intro p hp hex
      obtain ⟨e', he', he'p, he'idx⟩ := hex
      rcases List.mem_cons.mp he' with rfl | he'tl
      · exact absurd he'idx hidx
      · exact ihCut p hp ⟨e', he'tl, he'p, he'idx⟩

/-- One top color of the top-cuts-bottom pass, under the exact kernel:
the entries shape is preserved, entries keep shrinking relative to the
post-union map `cp₀`, and the disjointness frontier moves down from
`ti + 1` to `ti`. -/
theorem flattenTop_outer_step (zOrder : List ℕ) (hzn : zOrder.Nodup)
    (cp₀ : List (ℕ × Region)) (hkeys : cp₀.map Prod.fst = zOrder)
    (ti : ℕ) (acc : List (ℕ × Region) × ℕ)
    (hA : FlattenCP acc.1)
    (hB : ∀ p ∈ acc.1, ∃ q ∈ cp₀, q.1 = p.1 ∧ p.2.geom ⊆ q.2.geom)
    (hC : ∀ p ∈ acc.1, ∀ q ∈ acc.1,
        zOrder.indexOf q.1 < zOrder.indexOf p.1 →
        ti + 1 ≤ zOrder.indexOf p.1 → Disjoint p.2.geom q.2.geom) :
    FlattenCP (flattenTopStep KExact zOrder
        (cp₀.map (fun p => (p.1, RendererState.boxOfD p.2.geom))) acc ti).1 ∧
    (∀ p ∈ (flattenTopStep KExact zOrder
        (cp₀.map (fun p => (p.1, RendererState.boxOfD p.2.geom))) acc ti).1,
      ∃ q ∈ cp₀, q.1 = p.1 ∧ p.2.geom ⊆ q.2.geom) ∧
    (∀ p ∈ (flattenTopStep KExact zOrder
        (cp₀.map (fun p => (p.1, RendererState.boxOfD p.2.geom))) acc ti).1,
      ∀ q ∈ (flattenTopStep KExact zOrder
        (cp₀.map (fun p => (p.1, RendererState.boxOfD p.2.geom))) acc ti).1,
      zOrder.indexOf q.1 < zOrder.indexOf p.1 →
      ti ≤ zOrder.indexOf p.1 → Disjoint p.2.geom q.2.geom) := by
  have hmemz : ∀ p ∈ acc.1, p.1 ∈ zOrder := by
    intro p hp
    obtain ⟨q, hq, hq1, _⟩ := hB p hp
    rw [← hkeys, ← hq1]
    exact List.mem_map_of_mem Prod.fst hq
  cases hz : zOrder[ti]? with
  | none =>
    have hstep : flattenTopStep KExact zOrder
        (cp₀.map (fun p => (p.1, RendererState.boxOfD p.2.geom))) acc ti =
        acc := by
      simp only [flattenTopStep, hz]
    rw [hstep]
    refine ⟨hA, hB, ?_⟩
    intro p hp q hq hlt hle
    rcases Nat.eq_or_lt_of_le hle with heq | hlt'
    · have hlen := List.getElem?_eq_none_iff.mp hz
      have := List.indexOf_lt_length.mpr (hmemz p hp)
      omega
    · exact hC p hp q hq hlt hlt'
  | some topColor =>
    obtain ⟨hti, hget⟩ := List.getElem?_eq_some.mp hz
    have hidxtop : zOrder.indexOf topColor = ti := by
      rw [← hget]
      exact List.indexOf_getElem hzn ti hti
    cases hfind : acc.1.find? (fun p => p.1 = topColor) with
    | none =>
      have hstep : flattenTopStep KExact zOrder
          (cp₀.map (fun p => (p.1, RendererState.boxOfD p.2.geom))) acc ti =
          acc := by
        simp only [flattenTopStep, hz, hfind]
      rw [hstep]
      refine ⟨hA, hB, ?_⟩
      intro p hp q hq hlt hle
      rcases Nat.eq_or_lt_of_le hle with heq | hlt'
      · have htopz : topColor ∈ zOrder := by
          rw [← hget]
          exact List.getElem_mem hti
        have hptop : p.1 = topColor := by
          refine (List.indexOf_inj (hmemz p hp) htopz).mp ?_
          rw [hidxtop, heq]
        have := List.find?_eq_none.mp hfind p hp
        simp [hptop] at this
      · exact hC p hp q hq hlt hlt'
    | some qq =>
      obtain ⟨q1, topPath⟩ := qq
      have hq1 : q1 = topColor := by simpa using List.find?_some hfind
      have htopmem : (topColor, topPath) ∈ acc.1 := by
        rw [← hq1]
        exact List.mem_of_find?_eq_some hfind
      have hnz : ∀ c, zOrder.indexOf c < ti → c ≠ topColor := by
        intro c hltc hc
        rw [hc, hidxtop] at hltc
        exact lt_irrefl _ hltc
      rw [flattenTopStep_found hz hfind]
      obtain ⟨hA', hTop', hShrink', hCut'⟩ :=
        flattenHits_fold zOrder ti topColor topPath hnz
          ((cp₀.map (fun p => (p.1, RendererState.boxOfD p.2.geom))).filter
            (fun e => (RendererState.boxOfD topPath.geom).intersects e.2))
          acc hA htopmem
      refine ⟨hA', ?_, ?_⟩
      · intro p hp
        obtain ⟨q, hq, hpq, hsub⟩ := hShrink' p hp
        obtain ⟨q', hq', hqq', hsub'⟩ := hB q hq
        exact ⟨q', hq', by rw [hqq', ← hpq], hsub.trans hsub'⟩
      · intro p hp q hq hlt hle
        rcases Nat.eq_or_lt_of_le hle with heq | hlt'
        · -- `p` is the top entry just processed
          obtain ⟨pa, hpa, hppa, hsubp⟩ := hShrink' p hp
          have htopz : topColor ∈ zOrder := by
            rw [← hget]
            exact List.getElem_mem hti
          have hptop : p.1 = topColor := by
            have hpz : p.1 ∈ zOrder := by
              obtain ⟨q₀, hq₀, hq₀1, _⟩ := hB pa hpa
              rw [← hkeys, hppa, ← hq₀1]
              exact List.mem_map_of_mem Prod.fst hq₀
            refine (List.indexOf_inj hpz htopz).mp ?_
            rw [hidxtop, heq]
          have hpeq : p = (topColor, topPath) :=
            List.inj_on_of_nodup_map hA'.1 hp hTop' (by rw [hptop])
          -- ancestors of `q` down to the post-union map
          obtain ⟨qa, hqa, hqqa, hsubq⟩ := hShrink' q hq
          obtain ⟨q₀, hq₀, hq₀1, hsubq₀⟩ := hB qa hqa
          have hqkey : q₀.1 = q.1 := by rw [hq₀1, ← hqqa]
          have he : (q₀.1, RendererState.boxOfD q₀.2.geom) ∈
              cp₀.map (fun p => (p.1, RendererState.boxOfD p.2.geom)) :=
            List.mem_map_of_mem _ hq₀
          by_cases hbox : (RendererState.boxOfD topPath.geom).intersects
              (RendererState.boxOfD q₀.2.geom) = true
          · have hehits : (q₀.1, RendererState.boxOfD q₀.2.geom) ∈
                (cp₀.map (fun p => (p.1, RendererState.boxOfD p.2.geom))).filter
                  (fun e => (RendererState.boxOfD topPath.geom).intersects e.2) :=
              List.mem_filter.mpr ⟨he, hbox⟩
            have hqd : Disjoint q.2.geom topPath.geom := by
              refine hCut' q hq ⟨(q₀.1, RendererState.boxOfD q₀.2.geom),
                hehits, hqkey, ?_⟩
              show zOrder.indexOf q₀.1 < ti
              rw [hqkey, heq]
              exact hlt
            rw [hpeq]
            exact hqd.symm
          · by_contra hnd
            obtain ⟨x, hx1, hx2⟩ := Finset.not_disjoint_iff.mp hnd
            rw [hpeq] at hx1
            have hx2' : x ∈ q₀.2.geom := hsubq₀ (hsubq hx2)
            have hbio := boxIntersectsO_of_mem hx1 hx2'
            obtain ⟨bt, hbt, _, _, _, _⟩ := mem_boxOf hx1
            obtain ⟨bu, hbu, _, _, _, _⟩ := mem_boxOf hx2'
            rw [hbt, hbu] at hbio
            rw [RendererState.boxOfD_eq hbt, RendererState.boxOfD_eq hbu]
              at hbox
            exact hbox (by simpa [boxIntersectsO] using hbio)
        · -- both were already settled at frontier `ti + 1`
          obtain ⟨pa, hpa, hppa, hsubp⟩ := hShrink' p hp
          obtain ⟨qa, hqa, hqqa, hsubq⟩ := hShrink' q hq
          have : Disjoint pa.2.geom qa.2.geom := by
            refine hC pa hpa qa hqa ?_ ?_
            · rw [← hqqa, ← hppa]
              exact hlt
            · rw [← hppa]
              exact hlt'
          exact Finset.disjoint_of_subset_left hsubp
            (Finset.disjoint_of_subset_right hsubq this)

/-- Folding the top-cuts-bottom pass from index `k - 1` down to `0`, under the
exact kernel: at the end every pair of entries with distinct z-positions is
disjoint. -/
theorem flattenTop_outer (zOrder : List ℕ) (hzn : zOrder.Nodup)
    (cp₀ : List (ℕ × Region)) (hkeys : cp₀.map Prod.fst = zOrder) :
    ∀ (k : ℕ) (acc : List (ℕ × Region) × ℕ),
      FlattenCP acc.1 →
      (∀ p ∈ acc.1, ∃ q ∈ cp₀, q.1 = p.1 ∧ p.2.geom ⊆ q.2.geom) →
      (∀ p ∈ acc.1, ∀ q ∈ acc.1,
        zOrder.indexOf q.1 < zOrder.indexOf p.1 →
        k ≤ zOrder.indexOf p.1 → Disjoint p.2.geom q.2.geom) →
      FlattenCP (((List.range k).reverse.foldl
        (flattenTopStep KExact zOrder
          (cp₀.map (fun p => (p.1, RendererState.boxOfD p.2.geom)))) acc).1) ∧
      (∀ p ∈ (((List.range k).reverse.foldl
        (flattenTopStep KExact zOrder
          (cp₀.map (fun p => (p.1, RendererState.boxOfD p.2.geom)))) acc).1),
        ∃ q ∈ cp₀, q.1 = p.1 ∧ p.2.geom ⊆ q.2.geom) ∧
      (∀ p ∈ (((List.range k).reverse.foldl
        (flattenTopStep KExact zOrder
          (cp₀.map (fun p => (p.1, RendererState.boxOfD p.2.geom)))) acc).1),
        ∀ q ∈ (((List.range k).reverse.foldl
        (flattenTopStep KExact zOrder
          (cp₀.map (fun p => (p.1, RendererState.boxOfD p.2.geom)))) acc).1),
        zOrder.indexOf q.1 < zOrder.indexOf p.1 →
        Disjoint p.2.geom q.2.geom) := by
  intro k
  induction k with
  | zero =>
    intro acc hA hB hC
    simp only [List.range_zero, List.reverse_nil, List.foldl_nil]
    exact ⟨hA, hB, fun p hp q hq hlt => hC p hp q hq hlt (Nat.zero_le _)⟩
  | succ k ih =>
    intro acc hA hB hC
    simp only [List.range_succ, List.reverse_append, List.reverse_singleton,
      List.singleton_append, List.foldl_cons]
    obtain ⟨hA', hB', hC'⟩ :=
      flattenTop_outer_step zOrder hzn cp₀ hkeys k acc hA hB hC
    exact ih _ hA' hB' hC'

/-- The union phase produces a well-formed colorPaths map. -/
theorem flattenUnite_goodcp (K : BoolKernel) (L : List Region) (nid : ℕ) :
    FlattenCP ((colorsInOrder L).foldl (flattenUniteStep K L) ([], nid)).1 := by
  constructor
  · rw [flattenUnite_fold_fst]
    simpa using colorsInOrder_nodup L
  · refine flattenUnite_fold_colors K L _ _ (by simp) ?_
    intro c hc
    exact mem_colorsInOrder.mp hc

/-- After `flatten` under the exact kernel, the remaining regions are
pairwise disjoint. -/
theorem flatten_pairwise (s : RendererState) :
    (flatten KExact s).layer.Pairwise (fun a b => Disjoint a.geom b.geom) := by
  unfold flatten
  split
  · next h2 =>
    rcases hL : s.layer with _ | ⟨a, _ | ⟨b, tl⟩⟩
    · simp [hL]
    · simp [hL]
    · rw [hL] at h2; simp at h2; omega
  · next h2 =>
    have hzn : (colorsInOrder s.layer).Nodup := colorsInOrder_nodup s.layer
    have hkeys : (((colorsInOrder s.layer).foldl
        (flattenUniteStep KExact s.layer) ([], s.nextId)).1).map Prod.fst =
        colorsInOrder s.layer := by
      rw [flattenUnite_fold_fst]
      rfl
    have hA₀ := flattenUnite_goodcp KExact s.layer s.nextId
    have hB₀ : ∀ p ∈ ((colorsInOrder s.layer).foldl
        (flattenUniteStep KExact s.layer) ([], s.nextId)).1,
        ∃ q ∈ ((colorsInOrder s.layer).foldl
          (flattenUniteStep KExact s.layer) ([], s.nextId)).1,
        q.1 = p.1 ∧ p.2.geom ⊆ q.2.geom :=
      fun p hp => ⟨p, hp, rfl, subset_rfl⟩
    have hC₀ : ∀ p ∈ ((colorsInOrder s.layer).foldl
        (flattenUniteStep KExact s.layer) ([], s.nextId)).1,
        ∀ q ∈ ((colorsInOrder s.layer).foldl
          (flattenUniteStep KExact s.layer) ([], s.nextId)).1,
        (colorsInOrder s.layer).indexOf q.1 <
          (colorsInOrder s.layer).indexOf p.1 →
        (colorsInOrder s.layer).length ≤
          (colorsInOrder s.layer).indexOf p.1 →
        Disjoint p.2.geom q.2.geom := by
      intro p hp q hq hlt hle
      have hpz : p.1 ∈ colorsInOrder s.layer := by
        rw [← hkeys]
        exact List.mem_map_of_mem Prod.fst hp
      have := List.indexOf_lt_length.mpr hpz
      omega
    obtain ⟨hA, hB, hC⟩ := flattenTop_outer (colorsInOrder s.layer) hzn
      (((colorsInOrder s.layer).foldl
        (flattenUniteStep KExact s.layer) ([], s.nextId)).1) hkeys
      (colorsInOrder s.layer).length
      (((colorsInOrder s.layer).foldl
          (flattenUniteStep KExact s.layer) ([], s.nextId)).1,
       ((colorsInOrder s.layer).foldl
          (flattenUniteStep KExact s.layer) ([], s.nextId)).2)
      hA₀ hB₀ hC₀
    rw [List.pairwise_map]
    refine List.Pairwise.imp_of_mem ?_ (List.pairwise_map.mp hA.1)
    intro p q hp hq hne
    have hpz : p.1 ∈ colorsInOrder s.layer := by
      obtain ⟨q₀, hq₀, hq₀1, _⟩ := hB p hp
      rw [← hkeys, ← hq₀1]
      exact List.mem_map_of_mem Prod.fst hq₀
    have hqz : q.1 ∈ colorsInOrder s.layer := by
      obtain ⟨q₀, hq₀, hq₀1, _⟩ := hB q hq
      rw [← hkeys, ← hq₀1]
      exact List.mem_map_of_mem Prod.fst hq₀
    rcases Nat.lt_trichotomy ((colorsInOrder s.layer).indexOf p.1)
      ((colorsInOrder s.layer).indexOf q.1) with h | h | h
    · exact (hC q hq p hp h).symm
    · exact absurd ((List.indexOf_inj hpz hqz).mp h) hne
    · exact hC p hp q hq h

/-! ## Topology resolver (`splitDisconnectedItems`)

The resolver works on the children of one compound path.  Each child contour
carries the data the source reads off paper.js: its (signed) area — the code
compares `Math.abs(p.area)` —, its bounding box, its filled geometry (for the
`contains` tests) and its cached interior sample points (`samplePoints`).
The source's `computeDepth`/`nearestEven` recurse along parent links without
a bound; they terminate exactly when the parent chains are acyclic, which the
fuel `subs.length` captures for such inputs. -/

/-- One child contour of a compound path. -/
structure Contour where
  area : ℤ
  box : Box
  geom : Geom
  samples : List Pt
deriving DecidableEq

/-- Placeholder for out-of-range indexing (never reached on valid indices). -/
def defaultContour : Contour := ⟨0, ⟨0, 0, 0, 0⟩, ∅, []⟩

/-- `containsAny`: does the contour contain at least one of the points? -/
def containsAnyC (c : Contour) (pts : List Pt) : Bool :=
  pts.any (fun p => p ∈ c.geom)

/-- The candidate test of the parent search: `j ≠ i`, `j`'s bounds contain
`i`'s bounds, and `j` contains one of `i`'s interior samples. -/
def parentCandidate (subs : List Contour) (j i : ℕ) : Prop :=
  j ≠ i ∧
  (subs.getD j defaultContour).box.containsBox
    (subs.getD i defaultContour).box = true ∧
  containsAnyC (subs.getD j defaultContour)
    (subs.getD i defaultContour).samples = true

/-- One iteration of the parent search: skip `i` itself, quick-reject by
bounds, check the interior samples, then keep the strictly smaller
absolute area. -/
def findParentStep (subs : List Contour) (i : ℕ) (best : Option ℕ) (j : ℕ) :
    Option ℕ :=
  if j = i then best
  else if ¬ ((subs.getD j defaultContour).box.containsBox
      (subs.getD i defaultContour).box) then best
  else if ¬ containsAnyC (subs.getD j defaultContour)
      (subs.getD i defaultContour).samples then best
  else
    match best with
    | none => some j
    | some b =>
      if |(subs.getD j defaultContour).area| <
          |(subs.getD b defaultContour).area| then some j
      else best

/-- `parents[i]`: the smallest-area containing contour, if any. -/
def findParent (subs : List Contour) (i : ℕ) : Option ℕ :=
  (List.range subs.length).foldl (findParentStep subs i) none

/-- `computeDepth`, with fuel standing in for the source's unbounded
recursion along parent chains. -/
def depthF (parents : ℕ → Option ℕ) : ℕ → ℕ → ℕ
  | 0, _ => 0
  | fuel + 1, i =>
    match parents i with
    | none => 0
    | some p => depthF parents fuel p + 1

/-- `nearestEven`: walk parent links until an even-depth contour. -/
def nearestEvenF (parents : ℕ → Option ℕ) (depth : ℕ → ℕ) : ℕ → ℕ → ℕ
  | 0, i => i
  | fuel + 1, i =>
    if depth i % 2 = 0 then i
    else
      match parents i with
      | none => i
      | some p => nearestEvenF parents depth fuel p

/-- Nesting depth of contour `i` of the compound. -/
def splitDepth (subs : List Contour) (i : ℕ) : ℕ :=
  depthF (findParent subs) subs.length i

/-- The nearest even-depth ancestor of contour `i`. -/
def splitNearestEven (subs : List Contour) (i : ℕ) : ℕ :=
  nearestEvenF (findParent subs) (splitDepth subs) subs.length i

/-- The group of a root: the root itself and its odd-depth descendants that
reach it as nearest even-depth ancestor. -/
def splitGroup (subs : List Contour) (root : ℕ) : List ℕ :=
  (List.range subs.length).filter
    (fun i => splitNearestEven subs i = root ∧
      (i = root ∨ splitDepth subs i % 2 = 1))

/-- First-reference insertion order of naturals (a JS `Map`'s key order). -/
def insertionDedup (l : List ℕ) : List ℕ :=
  l.foldl (fun acc c => if c ∈ acc then acc else acc ++ [c]) []

/-- The group keys, in first-reference order. -/
def splitRoots (subs : List Contour) : List ℕ :=
  insertionDedup ((List.range subs.length).map (splitNearestEven subs))

/-- `filledRoots`: the even-depth group keys. -/
def splitFilledRoots (subs : List Contour) : List ℕ :=
  (splitRoots subs).filter (fun k => splitDepth subs k % 2 = 0)

/-- An output region of the resolver: a simple path, or a compound path with
an explicit fill rule. -/
inductive OutRegion where
  | simple (c : Contour)
  | compound (fillRule : String) (cs : List Contour)
deriving DecidableEq

/-- `splitDisconnectedItems` on one compound: `none` when the item is kept
as-is (one child or at most one filled piece); otherwise one output region
per filled root — a simple path for a singleton group, else an even-odd
compound holding the group's contours. -/
def splitCompound (subs : List Contour) : Option (List OutRegion) :=
  if subs.length ≤ 1 then none
  else if (splitFilledRoots subs).length ≤ 1 then none
  else
    some ((splitFilledRoots subs).map (fun root =>
      if (splitGroup subs root).length = 1 then
        OutRegion.simple (subs.getD root defaultContour)
      else
        OutRegion.compound "evenodd"
          ((splitGroup subs root).map
            (fun ci => subs.getD ci defaultContour))))

/-- Acyclicity of the parent chains, expressed as fuel stability of the
depth computation (the form the source's unbounded recursion needs). -/
def DepthStable (subs : List Contour) : Prop :=
  ∀ i < subs.length,
    depthF (findParent subs) subs.length i =
      depthF (findParent subs) (subs.length + 1) i

/-- The parent-search fold keeps the best candidate minimal. -/
theorem findParentStep_fold (subs : List Contour) (i : ℕ) :
    ∀ (l : List ℕ) (best : Option ℕ),
      (∀ b, best = some b → parentCandidate subs b i) →
      (∀ j, l.foldl (findParentStep subs i) best = some j →
        parentCandidate subs j i ∧
        (∀ k ∈ l, parentCandidate subs k i →
          |(subs.getD j defaultContour).area| ≤
            |(subs.getD k defaultContour).area|) ∧
        (∀ b, best = some b →
          |(subs.getD j defaultContour).area| ≤
            |(subs.getD b defaultContour).area|)) ∧
      (l.foldl (findParentStep subs i) best = none →
        best = none ∧ ∀ k ∈ l, ¬ parentCandidate subs k i) := by
  intro l
  induction l with
  | nil =>
    intro best hb
    constructor
    · intro j hj
      refine ⟨hb j hj, by simp, ?_⟩
      intro b hbb
      cases Option.some.inj (hj.symm.trans hbb)
      exact le_refl _
    · intro hnone
      exact ⟨hnone, by simp⟩
  | cons x xs ih =>
    intro best hb
    rw [List.foldl_cons]
    by_cases hcand : parentCandidate subs x i
    · obtain ⟨hxi, hbox, hcont⟩ := hcand
      cases best with
      | none =>
        have hstep : findParentStep subs i none x = some x := by
          unfold findParentStep
          rw [if_neg hxi, if_neg (not_not_intro hbox),
            if_neg (not_not_intro hcont)]
        rw [hstep]
        have hb' : ∀ b, (some x : Option ℕ) = some b → parentCandidate subs b i := by
          intro b hbb
          cases hbb
          exact ⟨hxi, hbox, hcont⟩
        obtain ⟨ihs, ihn⟩ := ih (some x) hb'
        constructor
        · intro j hj
          obtain ⟨h1, h2, h3⟩ := ihs j hj
          refine ⟨h1, ?_, fun b hbb => by simp at hbb⟩
          intro k hk hkc
          rcases List.mem_cons.mp hk with rfl | hk
          · exact h3 k rfl
          · exact h2 k hk hkc
        · intro hnone
          exact absurd (ihn hnone).1 (by simp)
      | some b =>
        have hstep : findParentStep subs i (some b) x =
            (if |(subs.getD x defaultContour).area| <
                |(subs.getD b defaultContour).area| then some x
             else some b) := by
          unfold findParentStep
          rw [if_neg hxi, if_neg (not_not_intro hbox),
            if_neg (not_not_intro hcont)]
        rw [hstep]
        by_cases hlt : |(subs.getD x defaultContour).area| <
            |(subs.getD b defaultContour).area|
        · rw [if_pos hlt]
          have hb' : ∀ b', (some x : Option ℕ) = some b' →
              parentCandidate subs b' i := by
            intro b' hbb
            cases hbb
            exact ⟨hxi, hbox, hcont⟩
          obtain ⟨ihs, ihn⟩ := ih (some x) hb'
          constructor
          · intro j hj
            obtain ⟨h1, h2, h3⟩ := ihs j hj
            refine ⟨h1, ?_, ?_⟩
            · intro k hk hkc
              rcases List.mem_cons.mp hk with rfl | hk
              · exact h3 k rfl
              · exact h2 k hk hkc
            · intro b' hbb
              cases hbb
              exact le_trans (h3 x rfl) (le_of_lt hlt)
          · intro hnone
            exact absurd (ihn hnone).1 (by simp)
        · rw [if_neg hlt]
          obtain ⟨ihs, ihn⟩ := ih (some b) (fun b' hbb => by
            cases hbb; exact hb b rfl)
          constructor
          · intro j hj
            obtain ⟨h1, h2, h3⟩ := ihs j hj
            refine ⟨h1, ?_, ?_⟩
            · intro k hk hkc
              rcases List.mem_cons.mp hk with rfl | hk
              · exact le_trans (h3 b rfl) (not_lt.mp hlt)
              · exact h2 k hk hkc
            · intro b' hbb
              cases hbb
              exact h3 b rfl
          · intro hnone
            exact absurd (ihn hnone).1 (by simp)
    · have hstep : findParentStep subs i best x = best := by
        unfold findParentStep
        by_cases h1 : x = i
        · rw [if_pos h1]
        · rw [if_neg h1]
          by_cases h2 : (subs.getD x defaultContour).box.containsBox
              (subs.getD i defaultContour).box = true
          · rw [if_neg (not_not_intro h2)]
            by_cases h3 : containsAnyC (subs.getD x defaultContour)
                (subs.getD i defaultContour).samples = true
            · exact absurd ⟨h1, h2, h3⟩ hcand
            · rw [if_pos h3]
          · rw [if_pos h2]
      rw [hstep]
      obtain ⟨ihs, ihn⟩ := ih best hb
      constructor
      · intro j hj
        obtain ⟨h1, h2, h3⟩ := ihs j hj
        refine ⟨h1, ?_, h3⟩
        intro k hk hkc
        rcases List.mem_cons.mp hk with rfl | hk
        · exact absurd hkc hcand
        · exact h2 k hk hkc
      · intro hnone
        obtain ⟨h1, h2⟩ := ihn hnone
        refine ⟨h1, ?_⟩
        intro k hk
        rcases List.mem_cons.mp hk with rfl | hk
        · exact hcand
        · exact h2 k hk

/-- C4: when the topology resolver splits a compound, (a) each contour's
direct parent is a smallest-|area| contour among those whose bounds contain
its bounds and which contain one of its interior samples (`none` exactly when
there is no such contour); (b) every even-depth contour is its own nearest
even-depth ancestor, and every odd-depth contour is grouped with its direct
parent, which has even depth; (c) exactly one output region is emitted per
even-depth group — a simple region for a singleton group, otherwise a
compound region with the even-odd fill rule holding that group's contours. -/
theorem c4_topology_resolver (subs : List Contour) (outs : List OutRegion)
    (hn : 2 ≤ subs.length)
    (hstable : DepthStable subs)
    (hsplit : splitCompound subs = some outs) :
    (∀ i < subs.length,
      (findParent subs i = none →
        ∀ k < subs.length, ¬ parentCandidate subs k i) ∧
      (∀ j, findParent subs i = some j →
        parentCandidate subs j i ∧
        ∀ k < subs.length, parentCandidate subs k i →
          |(subs.getD j defaultContour).area| ≤
            |(subs.getD k defaultContour).area|)) ∧
    (∀ i < subs.length,
      (splitDepth subs i % 2 = 0 → splitNearestEven subs i = i) ∧
      (splitDepth subs i % 2 = 1 →
        ∃ p, findParent subs i = some p ∧ splitDepth subs p % 2 = 0 ∧
          splitNearestEven subs i = p)) ∧
    outs = (splitFilledRoots subs).map (fun root =>
      if (splitGroup subs root).length = 1 then
        OutRegion.simple (subs.getD root defaultContour)
      else
        OutRegion.compound "evenodd"
          ((splitGroup subs root).map (fun ci => subs.getD ci defaultContour))) ∧
    (∀ root ∈ splitFilledRoots subs, splitDepth subs root % 2 = 0) ∧
    outs.length = (splitFilledRoots subs).length := by
  obtain ⟨m, hm⟩ : ∃ m, subs.length = m + 2 := ⟨subs.length - 2, by omega⟩
  have houts : outs = (splitFilledRoots subs).map (fun root =>
      if (splitGroup subs root).length = 1 then
        OutRegion.simple (subs.getD root defaultContour)
      else
        OutRegion.compound "evenodd"
          ((splitGroup subs root).map (fun ci => subs.getD ci defaultContour))) := by
    unfold splitCompound at hsplit
    rw [if_neg (by omega)] at hsplit
    by_cases hfr : (splitFilledRoots subs).length ≤ 1
    · rw [if_pos hfr] at hsplit
      exact absurd hsplit (by simp)
    · rw [if_neg hfr] at hsplit
      exact (Option.some.inj hsplit).symm
  refine ⟨?_, ?_, houts, ?_, ?_⟩
  · intro i _
    obtain ⟨ihs, ihn⟩ := findParentStep_fold subs i (List.range subs.length)
      none (by simp)
    constructor
    · intro hnone k hk
      exact (ihn hnone).2 k (List.mem_range.mpr hk)
    · intro j hj
      obtain ⟨h1, h2, _⟩ := ihs j hj
      exact ⟨h1, fun k hk hkc => h2 k (List.mem_range.mpr hk) hkc⟩
  · intro i hi
    constructor
    · intro heven
      unfold splitNearestEven
      rw [hm]
      simp only [nearestEvenF]
      rw [if_pos heven]
    · intro hodd
      cases hp : findParent subs i with
      | none =>
        have : splitDepth subs i = 0 := by
          unfold splitDepth
          rw [hm]
          simp only [depthF, hp]
        rw [this] at hodd
        simp at hodd
      | some p =>
        have hdp : splitDepth subs i = splitDepth subs p + 1 := by
          have hst := hstable i hi
          unfold splitDepth
          rw [hst]
          show depthF (findParent subs) (subs.length + 1) i = _
          simp only [depthF, hp]
        have hpe : splitDepth subs p % 2 = 0 := by omega
        refine ⟨p, rfl, hpe, ?_⟩
        have hio : ¬ splitDepth subs i % 2 = 0 := by omega
        unfold splitNearestEven
        rw [hm]
        simp only [nearestEvenF, hio, if_false, hp]
        rw [if_pos hpe]
  · intro root hroot
    unfold splitFilledRoots at hroot
    exact of_decide_eq_true (List.mem_filter.mp hroot).2
  · rw [houts, List.length_map]

/-- Witness for C4: a compound made of two disjoint unit squares splits into
two simple regions. -/
theorem c4_topology_resolver_witness :
    2 ≤ ([⟨1, ⟨0, 0, 1, 1⟩, {(0, 0)}, [(0, 0)]⟩,
          ⟨1, ⟨5, 5, 6, 6⟩, {(5, 5)}, [(5, 5)]⟩] : List Contour).length ∧
    DepthStable [⟨1, ⟨0, 0, 1, 1⟩, {(0, 0)}, [(0, 0)]⟩,
                 ⟨1, ⟨5, 5, 6, 6⟩, {(5, 5)}, [(5, 5)]⟩] ∧
    splitCompound [⟨1, ⟨0, 0, 1, 1⟩, {(0, 0)}, [(0, 0)]⟩,
                   ⟨1, ⟨5, 5, 6, 6⟩, {(5, 5)}, [(5, 5)]⟩] =
      some [OutRegion.simple ⟨1, ⟨0, 0, 1, 1⟩, {(0, 0)}, [(0, 0)]⟩,
            OutRegion.simple ⟨1, ⟨5, 5, 6, 6⟩, {(5, 5)}, [(5, 5)]⟩] ∧
    ([OutRegion.simple ⟨1, ⟨0, 0, 1, 1⟩, {(0, 0)}, [(0, 0)]⟩,
      OutRegion.simple ⟨1, ⟨5, 5, 6, 6⟩, {(5, 5)}, [(5, 5)]⟩] :
        List OutRegion).length =
      (splitFilledRoots [⟨1, ⟨0, 0, 1, 1⟩, {(0, 0)}, [(0, 0)]⟩,
                         ⟨1, ⟨5, 5, 6, 6⟩, {(5, 5)}, [(5, 5)]⟩]).length := by
  refine ⟨by decide, by unfold DepthStable; decide, by decide, ?_⟩
  exact (c4_topology_resolver
    [⟨1, ⟨0, 0, 1, 1⟩, {(0, 0)}, [(0, 0)]⟩,
     ⟨1, ⟨5, 5, 6, 6⟩, {(5, 5)}, [(5, 5)]⟩]
    [OutRegion.simple ⟨1, ⟨0, 0, 1, 1⟩, {(0, 0)}, [(0, 0)]⟩,
     OutRegion.simple ⟨1, ⟨5, 5, 6, 6⟩, {(5, 5)}, [(5, 5)]⟩]
    (by decide) (by unfold DepthStable; decide) (by decide)).2.2.2.2

/-! ## History manager (`history.ts`)

An entry's `layerJSON` payload is abstracted as a natural number; the
`timestamp` field plays no role in any claim and is omitted from the entry. -/

/-- `HistoryManager` state: the entry stack, the current index (`-1` before
the first snapshot, hence an integer) and the reentrancy guard. -/
structure HistoryManager where
  stack : List ℕ
  index : ℤ
  isRestoring : Bool
deriving DecidableEq, Repr

namespace HistoryManager

/-- `maxSize` of the history stack. -/
def maxSize : ℕ := 50

/-- Fresh manager (`stack = []`, `index = -1`, not restoring). -/
def init : HistoryManager := ⟨[], -1, false⟩

/-- `snapshot()`: truncate the redo branch, append the new entry, drop the
oldest entry when over `maxSize`, and point `index` at the last entry. -/
def snapshot (h : HistoryManager) (entry : ℕ) : HistoryManager :=
  if h.isRestoring then h
  else
    let stack₁ := h.stack.take (h.index + 1).toNat
    let stack₂ := stack₁ ++ [entry]
    let s := if maxSize < stack₂.length then (stack₂.drop 1, h.index)
             else (stack₂, h.index + 1)
    { h with stack := s.1, index := (s.1.length : ℤ) - 1 }

/-- `canUndo()`. -/
def canUndo (h : HistoryManager) : Bool := 0 < h.index

/-- `canRedo()`. -/
def canRedo (h : HistoryManager) : Bool := h.index < (h.stack.length : ℤ) - 1

/-- `undo()`: move the index back when possible; returns success. -/
def undo (h : HistoryManager) : HistoryManager × Bool :=
  if h.canUndo then ({ h with index := h.index - 1 }, true) else (h, false)

/-- `redo()`: move the index forward when possible; returns success. -/
def redo (h : HistoryManager) : HistoryManager × Bool :=
  if h.canRedo then ({ h with index := h.index + 1 }, true) else (h, false)

/-- `getStackSize()`. -/
def getStackSize (h : HistoryManager) : ℕ := h.stack.length

/-- Any single `snapshot` keeps the stack within `maxSize`. -/
theorem snapshot_length_le (h : HistoryManager) (e : ℕ)
    (hlen : h.stack.length ≤ 50) : (h.snapshot e).stack.length ≤ 50 := by
  unfold snapshot
  split
  · exact hlen
  · simp only [maxSize]
    split
    · simp only [List.length_drop, List.length_append, List.length_cons,
        List.length_nil, List.length_take]
      omega
    · show (h.stack.take (h.index + 1).toNat ++ [e]).length ≤ 50
      omega

end HistoryManager

/-- C7: `snapshot()` truncates the redo branch at the current index, appends
the new entry (dropping the oldest entry instead of advancing the index when
the stack would exceed 50), leaves the index on the appended entry, and keeps
`getStackSize() ≤ 50` after any sequence of snapshots. -/
theorem c7_snapshot_truncate_append_bounded (h : HistoryManager) (e : ℕ)
    (hr : h.isRestoring = false) (hlen : h.stack.length ≤ 50) :
    (h.snapshot e).stack =
      (if 50 < (h.stack.take (h.index + 1).toNat).length + 1
       then ((h.stack.take (h.index + 1).toNat) ++ [e]).drop 1
       else (h.stack.take (h.index + 1).toNat) ++ [e]) ∧
    (h.snapshot e).index = ((h.snapshot e).stack.length : ℤ) - 1 ∧
    (h.snapshot e).stack.getLast? = some e ∧
    (h.snapshot e).getStackSize ≤ 50 ∧
    ∀ es : List ℕ,
      (es.foldl HistoryManager.snapshot HistoryManager.init).getStackSize ≤ 50 := by
  have hstack : (h.snapshot e).stack =
      (if 50 < (h.stack.take (h.index + 1).toNat).length + 1
       then ((h.stack.take (h.index + 1).toNat) ++ [e]).drop 1
       else (h.stack.take (h.index + 1).toNat) ++ [e]) := by
    simp only [HistoryManager.snapshot, hr, Bool.false_eq_true, if_false,
      HistoryManager.maxSize, List.length_append, List.length_cons,
      List.length_nil]
    split <;> rfl
  refine ⟨hstack, ?_, ?_, ?_, ?_⟩
  · simp only [HistoryManager.snapshot, hr, Bool.false_eq_true, if_false]
  · rw [hstack]
    split
    · next hgt =>
      have h1 : 1 ≤ (h.stack.take (h.index + 1).toNat).length := by omega
      rw [List.drop_append_of_le_length h1, List.getLast?_concat]
    · exact List.getLast?_concat _
  · have := HistoryManager.snapshot_length_le h e hlen
    exact this
  · intro es
    have key : ∀ (l : List ℕ) (h0 : HistoryManager), h0.stack.length ≤ 50 →
        (l.foldl HistoryManager.snapshot h0).stack.length ≤ 50 := by
      intro l
      induction l with
      | nil => intro h0 hh; exact hh
      | cons a tl ih =>
        intro h0 hh
        exact ih _ (HistoryManager.snapshot_length_le h0 a hh)
    exact key es HistoryManager.init (by simp [HistoryManager.init])

/-- Witness for C7 at a concrete manager: three entries, index 1 (one redo
entry pending), snapshotting entry 9. -/
theorem c7_snapshot_truncate_append_bounded_witness :
    (⟨[1, 2, 3], 1, false⟩ : HistoryManager).isRestoring = false ∧
    ((⟨[1, 2, 3], 1, false⟩ : HistoryManager).snapshot 9).stack = [1, 2, 9] ∧
    ((⟨[1, 2, 3], 1, false⟩ : HistoryManager).snapshot 9).getStackSize ≤ 50 := by
  have h := c7_snapshot_truncate_append_bounded ⟨[1, 2, 3], 1, false⟩ 9 rfl
    (by decide)
  refine ⟨rfl, ?_, h.2.2.2.1⟩
  rw [h.1]
  decide

/-! ## Camera (`src/core/camera.ts`)

The camera is embedded over real arithmetic (`ℝ`), the idealization of the
source's floating-point doubles; `Math.atan2(Math.sin v, Math.cos v)` is the
argument of the unit complex number with angle `v`. -/

/-- `CameraState` (position, zoom, rotation). -/
structure CameraState where
  x : ℝ
  y : ℝ
  zoom : ℝ
  rotation : ℝ

/-- The `Camera` class fields: position, zoom, rotation, viewport size. -/
structure Camera where
  x : ℝ
  y : ℝ
  zoom : ℝ
  rotation : ℝ
  viewportWidth : ℝ
  viewportHeight : ℝ

namespace Camera

/-- `minZoom` (10%). -/
def minZoom : ℝ := 0.1

/-- `maxZoom` (500%). -/
def maxZoom : ℝ := 5

/-- `Math.max(minZoom, Math.min(maxZoom, value))`. -/
noncomputable def clampZoom (v : ℝ) : ℝ := max minZoom (min maxZoom v)

/-- `Math.atan2(Math.sin v, Math.cos v)`: normalize an angle to `(-π, π]`. -/
noncomputable def normalizeAngle (v : ℝ) : ℝ :=
  Complex.arg ⟨Real.cos v, Real.sin v⟩

/-- The constructor: camera centered at the viewport center, zoom 1,
rotation 0. -/
noncomputable def init (viewportWidth viewportHeight : ℝ) : Camera :=
  { x := viewportWidth / 2, y := viewportHeight / 2, zoom := 1, rotation := 0,
    viewportWidth := viewportWidth, viewportHeight := viewportHeight }

/-- The `zoom` setter (clamps to `[minZoom, maxZoom]`). -/
noncomputable def setZoom (c : Camera) (value : ℝ) : Camera :=
  { c with zoom := clampZoom value }

/-- The `rotation` setter (normalizes to `(-π, π]`). -/
noncomputable def setRotation (c : Camera) (value : ℝ) : Camera :=
  { c with rotation := normalizeAngle value }

/-- `setState`: restores position and rotation verbatim, clamping only the
zoom. -/
noncomputable def setState (c : Camera) (s : CameraState) : Camera :=
  { c with x := s.x, y := s.y, zoom := clampZoom s.zoom, rotation := s.rotation }

/-- `screenToWorld`: translate to viewport center, inverse zoom, rotate by
`-rotation`, translate by camera position. -/
noncomputable def screenToWorld (c : Camera) (screenX screenY : ℝ) : ℝ × ℝ :=
  let offsetX := screenX - c.viewportWidth / 2
  let offsetY := screenY - c.viewportHeight / 2
  let scaledX := offsetX / c.zoom
  let scaledY := offsetY / c.zoom
  let cos := Real.cos (-c.rotation)
  let sin := Real.sin (-c.rotation)
  (scaledX * cos - scaledY * sin + c.x, scaledX * sin + scaledY * cos + c.y)

/-- `worldToScreen`: translate by `-position`, rotate by `rotation`, zoom,
translate to viewport center. -/
noncomputable def worldToScreen (c : Camera) (worldX worldY : ℝ) : ℝ × ℝ :=
  let offsetX := worldX - c.x
  let offsetY := worldY - c.y
  let cos := Real.cos c.rotation
  let sin := Real.sin c.rotation
  let rotatedX := offsetX * cos - offsetY * sin
  let rotatedY := offsetX * sin + offsetY * cos
  (rotatedX * c.zoom + c.viewportWidth / 2, rotatedY * c.zoom + c.viewportHeight / 2)

/-- `screenDeltaToWorld`: direction-only inverse transform. -/
noncomputable def screenDeltaToWorld (c : Camera) (deltaX deltaY : ℝ) : ℝ × ℝ :=
  let scaledX := deltaX / c.zoom
  let scaledY := deltaY / c.zoom
  let cos := Real.cos (-c.rotation)
  let sin := Real.sin (-c.rotation)
  (scaledX * cos - scaledY * sin, scaledX * sin + scaledY * cos)

/-- `pan`: move the camera opposite to a screen-space drag delta. -/
noncomputable def pan (c : Camera) (screenDeltaX screenDeltaY : ℝ) : Camera :=
  let worldDelta := c.screenDeltaToWorld screenDeltaX screenDeltaY
  { c with x := c.x - worldDelta.1, y := c.y - worldDelta.2 }

/-- `zoomAt`: multiply-and-clamp the zoom, then shift the camera so the world
point under `(screenX, screenY)` stays fixed. -/
noncomputable def zoomAt (c : Camera) (factor screenX screenY : ℝ) : Camera :=
  let worldBefore := c.screenToWorld screenX screenY
  let c₁ : Camera := { c with zoom := clampZoom (c.zoom * factor) }
  let worldAfter := c₁.screenToWorld screenX screenY
  { c₁ with x := c₁.x + (worldBefore.1 - worldAfter.1),
            y := c₁.y + (worldBefore.2 - worldAfter.2) }

/-- `rotateAt`: add-and-normalize the rotation, then shift the camera so the
world point under `(screenX, screenY)` stays fixed. -/
noncomputable def rotateAt (c : Camera) (deltaRadians screenX screenY : ℝ) :
    Camera :=
  let worldBefore := c.screenToWorld screenX screenY
  let c₁ : Camera := { c with rotation := normalizeAngle (c.rotation + deltaRadians) }
  let worldAfter := c₁.screenToWorld screenX screenY
  { c₁ with x := c₁.x + (worldBefore.1 - worldAfter.1),
            y := c₁.y + (worldBefore.2 - worldAfter.2) }

/-- A world-space bounding rectangle, as passed to `fitToBounds`. -/
structure BoundsRect where
  x : ℝ
  y : ℝ
  width : ℝ
  height : ℝ

/-- `fitToBounds`: center on the box, fit the padded box in the viewport with
the zoom clamped, and reset rotation to 0. -/
noncomputable def fitToBounds (c : Camera) (bounds : BoundsRect) (padding : ℝ) :
    Camera :=
  let paddedWidth := bounds.width * (1 + padding * 2)
  let paddedHeight := bounds.height * (1 + padding * 2)
  let zoomX := c.viewportWidth / paddedWidth
  let zoomY := c.viewportHeight / paddedHeight
  { c with x := bounds.x + bounds.width / 2, y := bounds.y + bounds.height / 2,
           zoom := clampZoom (min zoomX zoomY), rotation := 0 }

/-- `reset`: centered, zoom 1, rotation 0. -/
noncomputable def reset (c : Camera) : Camera :=
  { c with x := c.viewportWidth / 2, y := c.viewportHeight / 2, zoom := 1,
           rotation := 0 }

/-- A camera state is valid when the zoom is within `[0.1, 5]` and the
rotation lies in `(-π, π]`. -/
def Valid (c : Camera) : Prop :=
  (minZoom ≤ c.zoom ∧ c.zoom ≤ maxZoom) ∧
    c.rotation ∈ Set.Ioc (-Real.pi) Real.pi

theorem clampZoom_mem (v : ℝ) : minZoom ≤ clampZoom v ∧ clampZoom v ≤ maxZoom := by
  constructor
  · exact le_max_left _ _
  · have h1 : min maxZoom v ≤ maxZoom := min_le_left _ _
    have h2 : minZoom ≤ maxZoom := by norm_num [minZoom, maxZoom]
    exact max_le h2 h1

theorem normalizeAngle_mem (v : ℝ) :
    normalizeAngle v ∈ Set.Ioc (-Real.pi) Real.pi :=
  Complex.arg_mem_Ioc _

end Camera

/-- C5: for every screen point and camera state with zoom in `[0.1, 5]` and
rotation in `(-π, π]`, `worldToScreen (screenToWorld (sx, sy)) = (sx, sy)`
exactly, over real arithmetic. -/
theorem c5_camera_invertibility (c : Camera) (sx sy : ℝ)
    (hz : Camera.minZoom ≤ c.zoom ∧ c.zoom ≤ Camera.maxZoom)
    (_hr : c.rotation ∈ Set.Ioc (-Real.pi) Real.pi) :
    c.worldToScreen (c.screenToWorld sx sy).1 (c.screenToWorld sx sy).2 =
      (sx, sy) := by
  have hz0 : c.zoom ≠ 0 := by
    have h01 : (0 : ℝ) < Camera.minZoom := by norm_num [Camera.minZoom]
    exact ne_of_gt (lt_of_lt_of_le h01 hz.1)
  simp only [Camera.screenToWorld, Camera.worldToScreen, Real.cos_neg,
    Real.sin_neg]
  rw [Prod.mk.injEq]
  constructor
  · linear_combination ((sx - c.viewportWidth / 2) / c.zoom * c.zoom) *
      Real.sin_sq_add_cos_sq c.rotation +
      div_mul_cancel₀ (sx - c.viewportWidth / 2) hz0
  · linear_combination ((sy - c.viewportHeight / 2) / c.zoom * c.zoom) *
      Real.sin_sq_add_cos_sq c.rotation +
      div_mul_cancel₀ (sy - c.viewportHeight / 2) hz0

/-- Witness for C5: the initial 800×600 camera (zoom 1, rotation 0) at the
screen point (3, 4). -/
theorem c5_camera_invertibility_witness :
    (Camera.minZoom ≤ (Camera.init 800 600).zoom ∧
      (Camera.init 800 600).zoom ≤ Camera.maxZoom) ∧
    (Camera.init 800 600).rotation ∈ Set.Ioc (-Real.pi) Real.pi ∧
    (Camera.init 800 600).worldToScreen
      ((Camera.init 800 600).screenToWorld 3 4).1
      ((Camera.init 800 600).screenToWorld 3 4).2 = (3, 4) := by
  have h1 : Camera.minZoom ≤ (Camera.init 800 600).zoom ∧
      (Camera.init 800 600).zoom ≤ Camera.maxZoom := by
    constructor <;> norm_num [Camera.init, Camera.minZoom, Camera.maxZoom]
  have h2 : (Camera.init 800 600).rotation ∈ Set.Ioc (-Real.pi) Real.pi := by
    constructor
    · simpa [Camera.init] using neg_lt_zero.mpr Real.pi_pos
    · simpa [Camera.init] using Real.pi_pos.le
  exact ⟨h1, h2, c5_camera_invertibility (Camera.init 800 600) 3 4 h1 h2⟩

/-- C6: `zoomAt` and `rotateAt` preserve the world point under the pivot
screen point exactly, for every camera state, factor/angle and pivot —
including when the zoom is clamped and with the rotation normalized. -/
theorem c6_pivot_preservation (c : Camera) (factor delta sx sy : ℝ) :
    (c.zoomAt factor sx sy).screenToWorld sx sy = c.screenToWorld sx sy ∧
    (c.rotateAt delta sx sy).screenToWorld sx sy = c.screenToWorld sx sy := by
  constructor <;>
  · simp only [Camera.zoomAt, Camera.rotateAt, Camera.screenToWorld]
    rw [Prod.mk.injEq]
    constructor <;> ring

/-- C8, amended: every camera operation other than `setState` leaves the zoom
clamped to `[0.1, 5]` and the rotation normalized to `(-π, π]` (operations
that do not touch a component preserve its validity); `setState` clamps the
zoom but stores the supplied rotation verbatim, so its result is fully valid
only when the supplied state's rotation is already normalized. -/
theorem c8_camera_validity (c : Camera)
    (hz : Camera.minZoom ≤ c.zoom ∧ c.zoom ≤ Camera.maxZoom)
    (hr : c.rotation ∈ Set.Ioc (-Real.pi) Real.pi) :
    (∀ v, (c.setZoom v).Valid) ∧
    (∀ v, (c.setRotation v).Valid) ∧
    (∀ f px py, (c.zoomAt f px py).Valid) ∧
    (∀ d px py, (c.rotateAt d px py).Valid) ∧
    (∀ b p, (c.fitToBounds b p).Valid) ∧
    (∀ dx dy, (c.pan dx dy).Valid) ∧
    c.reset.Valid ∧
    (∀ s : CameraState,
      (Camera.minZoom ≤ (c.setState s).zoom ∧
        (c.setState s).zoom ≤ Camera.maxZoom) ∧
      (c.setState s).rotation = s.rotation) ∧
    (∀ s : CameraState, s.rotation ∈ Set.Ioc (-Real.pi) Real.pi →
      (c.setState s).Valid) := by
  have hzero : (0 : ℝ) ∈ Set.Ioc (-Real.pi) Real.pi :=
    ⟨neg_lt_zero.mpr Real.pi_pos, Real.pi_pos.le⟩
  have hone : Camera.minZoom ≤ (1 : ℝ) ∧ (1 : ℝ) ≤ Camera.maxZoom := by
    constructor <;> norm_num [Camera.minZoom, Camera.maxZoom]
  refine ⟨?_, ?_, ?_, ?_, ?_, ?_, ?_, ?_, ?_⟩
  · intro v
    exact ⟨Camera.clampZoom_mem v, hr⟩
  · intro v
    exact ⟨hz, Camera.normalizeAngle_mem v⟩
  · intro f px py
    exact ⟨Camera.clampZoom_mem (c.zoom * f), hr⟩
  · intro d px py
    exact ⟨hz, Camera.normalizeAngle_mem (c.rotation + d)⟩
  · intro b p
    exact ⟨Camera.clampZoom_mem _, hzero⟩
  · intro dx dy
    exact ⟨hz, hr⟩
  · exact ⟨hone, hzero⟩
  · intro s
    exact ⟨Camera.clampZoom_mem s.zoom, rfl⟩
  · intro s hs
    exact ⟨Camera.clampZoom_mem s.zoom, hs⟩

/-- Witness for C8 at the initial 800×600 camera. -/
theorem c8_camera_validity_witness :
    (Camera.minZoom ≤ (Camera.init 800 600).zoom ∧
      (Camera.init 800 600).zoom ≤ Camera.maxZoom) ∧
    (Camera.init 800 600).rotation ∈ Set.Ioc (-Real.pi) Real.pi ∧
    ((Camera.init 800 600).setZoom 900).Valid := by
  have h1 : Camera.minZoom ≤ (Camera.init 800 600).zoom ∧
      (Camera.init 800 600).zoom ≤ Camera.maxZoom := by
    constructor <;> norm_num [Camera.init, Camera.minZoom, Camera.maxZoom]
  have h2 : (Camera.init 800 600).rotation ∈ Set.Ioc (-Real.pi) Real.pi := by
    constructor
    · simpa [Camera.init] using neg_lt_zero.mpr Real.pi_pos
    · simpa [Camera.init] using Real.pi_pos.le
  exact ⟨h1, h2, (c8_camera_validity (Camera.init 800 600) h1 h2).1 900⟩

/-- Counterexample for C8 as stated: `setState` does not normalize the
rotation — restoring a state with rotation 4 radians leaves the camera's
rotation at 4, outside `(-π, π]`. -/
theorem c8_setState_not_normalized :
    ((Camera.init 800 600).setState ⟨0, 0, 1, 4⟩).rotation ∉
      Set.Ioc (-Real.pi) Real.pi := by
  intro hmem
  have h4 : ((Camera.init 800 600).setState ⟨0, 0, 1, 4⟩).rotation = 4 := rfl
  rw [h4] at hmem
  have hπ : Real.pi < 3.15 := Real.pi_lt_d2
  have := hmem.2
  linarith

/-! ## Claims about the merge engine -/

/-- C2, amended: an existing region is merged or cut exactly when it is live
and collides with the (evolving) incoming region, where the code's collision
test reduces to bounding-box overlap — the boundary-intersection and
mutual-center-containment checks only confirm early, and a conservative
fallback treats any bounds overlap as a collision.  Same-color collisions are
replaced by the union (which becomes the new incoming region); different-color
collisions are replaced in place by the difference. -/
theorem c2_merge_collision_behavior (K : BoolKernel) (acc : MergeAcc)
    (ex : Region) :
    pathsCollide acc.current.geom ex.geom =
      boxIntersectsO (boxOf acc.current.geom) (boxOf ex.geom) ∧
    (pathsCollide acc.current.geom ex.geom = false → mergeStep K acc ex = acc) ∧
    (acc.st.isLive ex.id = false → mergeStep K acc ex = acc) ∧
    (∀ u : Geom, acc.st.isLive ex.id = true →
      pathsCollide acc.current.geom ex.geom = true →
      ex.color = acc.current.color →
      K.unite acc.current.geom ex.geom = some u → u ≠ ∅ →
      (mergeStep K acc ex).current = ⟨acc.st.nextId, acc.current.color, u⟩ ∧
      (mergeStep K acc ex).st.layer =
        ((acc.st.layer.filter (fun r => r.id ≠ acc.current.id)).filter
          (fun r => r.id ≠ ex.id)) ++ [⟨acc.st.nextId, acc.current.color, u⟩]) ∧
    (∀ d : Geom, acc.st.isLive ex.id = true →
      pathsCollide acc.current.geom ex.geom = true →
      ex.color ≠ acc.current.color →
      K.subtract ex.geom acc.current.geom = some d → d ≠ ∅ →
      (mergeStep K acc ex).current = acc.current ∧
      (mergeStep K acc ex).st.layer = acc.st.layer.map
        (fun x => if x.id = ex.id then ⟨acc.st.nextId, ex.color, d⟩ else x)) := by
  refine ⟨pathsCollide_eq_boxIntersects _ _, ?_, ?_, ?_, ?_⟩
  · intro hc
    exact mergeStep_skip (by simp [hc])
  · intro hl
    exact mergeStep_skip (by simp [hl])
  · intro u hl hc hcol hu hne
    rw [mergeStep_unite hl hc hcol hu hne]
    exact ⟨rfl, rfl⟩
  · intro d hl hc hcol hs hne
    rw [mergeStep_cut hl hc hcol hs hne]
    exact ⟨rfl, rfl⟩

/-- Witness for C2 at a concrete same-color union step. -/
theorem c2_merge_collision_behavior_witness :
    (⟨[⟨0, 5, {(0, 3), (3, 0)}⟩], [], false, 2⟩ :
        RendererState).isLive 0 = true ∧
    pathsCollide ({(0, 0), (3, 3)} : Geom) ({(0, 3), (3, 0)} : Geom) = true ∧
    (mergeStep KExact
      ⟨⟨1, 5, {(0, 0), (3, 3)}⟩, ⟨[⟨0, 5, {(0, 3), (3, 0)}⟩], [], false, 2⟩⟩
      ⟨0, 5, {(0, 3), (3, 0)}⟩).current =
        ⟨2, 5, ({(0, 0), (3, 3)} : Geom) ∪ {(0, 3), (3, 0)}⟩ := by
  refine ⟨by decide, by decide, ?_⟩
  exact ((c2_merge_collision_behavior KExact
    ⟨⟨1, 5, {(0, 0), (3, 3)}⟩, ⟨[⟨0, 5, {(0, 3), (3, 0)}⟩], [], false, 2⟩⟩
    ⟨0, 5, {(0, 3), (3, 0)}⟩).2.2.2.1
    (({(0, 0), (3, 3)} : Geom) ∪ {(0, 3), (3, 0)})
    (by decide) (by decide) rfl rfl (by decide)).1

/-- Counterexample for C2 as stated: the geometries `{(0,0), (3,3)}` and
`{(0,3), (3,0)}` have overlapping bounding boxes but share no point and
contain neither box center, so the spec's collision definition rejects the
pair — yet the code's conservative fallback collides them, and `addPath` of
the first over a layer holding the second (same color) unions the two into a
single region instead of leaving the existing region untouched. -/
theorem c2_spec_collision_counterexample :
    specCollide ({(0, 0), (3, 3)} : Geom) ({(0, 3), (3, 0)} : Geom) = false ∧
    pathsCollide ({(0, 0), (3, 3)} : Geom) ({(0, 3), (3, 0)} : Geom) = true ∧
    (RendererState.addPath KExact
        ⟨[⟨0, 5, {(0, 3), (3, 0)}⟩],
         [(0, RendererState.boxOfD ({(0, 3), (3, 0)} : Geom))], false, 1⟩
        [{(0, 0), (3, 3)}] 5).layer =
      [⟨2, 5, ({(0, 0), (3, 3)} : Geom) ∪ {(0, 3), (3, 0)}⟩] := by
  refine ⟨by decide, by decide, by decide⟩

/-- C3: whenever a boolean difference in the add or subtract operation
returns an empty (or `null`) result, the target existing region is removed
exactly when the sampling-based `likelyFullyCovered` check accepts — and
acceptance implies the cutter contains every interior sample point of the
target; otherwise the target is kept unchanged.  Both branches return a state
(no error is surfaced). -/
theorem c3_empty_difference_guard (K : BoolKernel) :
    (∀ (acc : MergeAcc) (ex : Region),
      acc.st.isLive ex.id = true →
      pathsCollide acc.current.geom ex.geom = true →
      ex.color ≠ acc.current.color →
      (K.subtract ex.geom acc.current.geom = some ∅ ∨
        K.subtract ex.geom acc.current.geom = none) →
      (likelyFullyCovered acc.current.geom ex.geom = true →
        mergeStep K acc ex =
          { acc with st := (acc.st.indexRemove ex.id).layerRemove ex.id } ∧
        ∀ p ∈ samplePointsItem ex.geom, p ∈ acc.current.geom) ∧
      (likelyFullyCovered acc.current.geom ex.geom = false →
        mergeStep K acc ex = acc)) ∧
    (∀ (eraser : Geom) (st : RendererState) (ex : Region),
      st.isLive ex.id = true →
      pathsCollide eraser ex.geom = true →
      (K.subtract ex.geom eraser = some ∅ ∨ K.subtract ex.geom eraser = none) →
      (likelyFullyCovered eraser ex.geom = true →
        subtractStep K eraser st ex = (st.indexRemove ex.id).layerRemove ex.id ∧
        ∀ p ∈ samplePointsItem ex.geom, p ∈ eraser) ∧
      (likelyFullyCovered eraser ex.geom = false →
        subtractStep K eraser st ex = st)) := by
  constructor
  · intro acc ex hl hc hcol hs
    constructor
    · intro hcov
      rw [mergeStep_cut_degenerate hl hc hcol hs, if_pos hcov]
      exact ⟨rfl, likelyFullyCovered_subset hcov⟩
    · intro hcov
      rw [mergeStep_cut_degenerate hl hc hcol hs, if_neg (by simp [hcov])]
  · intro eraser st ex hl hc hs
    constructor
    · intro hcov
      rw [subtractStep_degenerate hl hc hs, if_pos hcov]
      exact ⟨rfl, likelyFullyCovered_subset hcov⟩
    · intro hcov
      rw [subtractStep_degenerate hl hc hs, if_neg (by simp [hcov])]

/-- Witness for C3: a kernel whose difference spuriously returns empty on a
target that is not fully covered (a sample point lies outside the cutter) —
the existing region is kept unchanged. -/
theorem c3_empty_difference_guard_witness :
    (⟨[⟨0, 7, {(0, 0), (5, 5)}⟩], [], false, 1⟩ : RendererState).isLive 0 =
      true ∧
    pathsCollide ({(0, 0)} : Geom) ({(0, 0), (5, 5)} : Geom) = true ∧
    likelyFullyCovered ({(0, 0)} : Geom) ({(0, 0), (5, 5)} : Geom) = false ∧
    subtractStep ⟨fun _ _ => some ∅, fun _ _ => some ∅⟩ {(0, 0)}
      ⟨[⟨0, 7, {(0, 0), (5, 5)}⟩], [], false, 1⟩ ⟨0, 7, {(0, 0), (5, 5)}⟩ =
      ⟨[⟨0, 7, {(0, 0), (5, 5)}⟩], [], false, 1⟩ := by
  refine ⟨by decide, by decide, by decide, ?_⟩
  exact ((c3_empty_difference_guard ⟨fun _ _ => some ∅, fun _ _ => some ∅⟩).2
    {(0, 0)} ⟨[⟨0, 7, {(0, 0), (5, 5)}⟩], [], false, 1⟩
    ⟨0, 7, {(0, 0), (5, 5)}⟩ (by decide) (by decide) (Or.inl rfl)).2 (by decide)

/-- C10, amended: in `mergePathWithExisting`'s same-color branch an empty (or
`null`) union leaves both original regions in the layer unchanged; in
`flatten`'s per-color union loop the empty result is likewise discarded and
the accumulated result kept, but the other operand is then removed by
`flatten`'s cleanup pass — after `flatten` at most one region per color
remains, whether or not the unions succeeded. -/
theorem c10_union_empty_behavior (K : BoolKernel) :
    (∀ (acc : MergeAcc) (ex : Region),
      acc.st.isLive ex.id = true →
      pathsCollide acc.current.geom ex.geom = true →
      ex.color = acc.current.color →
      (K.unite acc.current.geom ex.geom = some ∅ ∨
        K.unite acc.current.geom ex.geom = none) →
      mergeStep K acc ex = acc) ∧
    (∀ s : RendererState, ((flatten K s).layer.map Region.color).Nodup) :=
  ⟨fun _ _ hl hc hcol hu => mergeStep_unite_degenerate hl hc hcol hu,
   fun s => flatten_colors_nodup K s⟩

/-- Witness for C10: a kernel whose union spuriously returns empty leaves a
colliding same-color pair untouched in the merge step. -/
theorem c10_union_empty_behavior_witness :
    (⟨[⟨0, 5, {(0, 0)}⟩], [], false, 2⟩ : RendererState).isLive 0 = true ∧
    pathsCollide ({(0, 0)} : Geom) ({(0, 0)} : Geom) = true ∧
    mergeStep ⟨fun _ _ => some ∅, fun a b => some (a \ b)⟩
      ⟨⟨1, 5, {(0, 0)}⟩, ⟨[⟨0, 5, {(0, 0)}⟩], [], false, 2⟩⟩ ⟨0, 5, {(0, 0)}⟩ =
      ⟨⟨1, 5, {(0, 0)}⟩, ⟨[⟨0, 5, {(0, 0)}⟩], [], false, 2⟩⟩ := by
  refine ⟨by decide, by decide, ?_⟩
  exact (c10_union_empty_behavior ⟨fun _ _ => some ∅, fun a b => some (a \ b)⟩).1
    ⟨⟨1, 5, {(0, 0)}⟩, ⟨[⟨0, 5, {(0, 0)}⟩], [], false, 2⟩⟩ ⟨0, 5, {(0, 0)}⟩
    (by decide) (by decide) rfl (Or.inl rfl)

/-- Counterexample for C10 as stated: with a kernel whose union returns empty,
`flatten` on two same-color regions keeps only the accumulated first region —
the second operand of the failed union is removed by the cleanup pass instead
of being left in the layer. -/
theorem c10_flatten_union_empty_counterexample :
    (flatten ⟨fun _ _ => some ∅, fun a b => some (a \ b)⟩
        ⟨[⟨0, 5, {(0, 0)}⟩, ⟨1, 5, {(5, 5)}⟩], [], false, 2⟩).layer =
      [⟨0, 5, {(0, 0)}⟩] ∧
    (⟨1, 5, {(5, 5)}⟩ : Region) ∉
      (flatten ⟨fun _ _ => some ∅, fun a b => some (a \ b)⟩
        ⟨[⟨0, 5, {(0, 0)}⟩, ⟨1, 5, {(5, 5)}⟩], [], false, 2⟩).layer := by
  refine ⟨by decide, by decide⟩

/-- C9, amended: `addPath` and `subtractPath` maintain the spatial index
incrementally (it stays accurate) and never set the dirty flag; `clear` sets
the dirty flag; `flatten` does **not** set the dirty flag — on a layer with
at least two children it eagerly rebuilds the index from a full scan, leaving
the flag clear; and `ensureSpatialIndex` rebuilds from the full live-region
scan exactly when the dirty flag is set. -/
theorem c9_index_discipline (K : BoolKernel) (s₀ : RendererState)
    (hacc : s₀.indexDirty = false → IndexAccurate s₀) :
    (∀ gs c, (s₀.addPath K gs c).indexDirty = false ∧
      IndexAccurate (s₀.addPath K gs c)) ∧
    (∀ gs, (s₀.subtractPath K gs).indexDirty = false ∧
      IndexAccurate (s₀.subtractPath K gs)) ∧
    s₀.clear.indexDirty = true ∧
    (2 ≤ s₀.layer.length → (flatten K s₀).indexDirty = false ∧
      (flatten K s₀).index =
        (flatten K s₀).layer.map RendererState.makeIndexEntry) ∧
    (s₀.indexDirty = true → s₀.ensureSpatialIndex = s₀.rebuildSpatialIndex) ∧
    (s₀.indexDirty = false → s₀.ensureSpatialIndex = s₀) ∧
    s₀.rebuildSpatialIndex.index = s₀.layer.map RendererState.makeIndexEntry ∧
    s₀.rebuildSpatialIndex.indexDirty = false := by
  refine ⟨fun gs c => addPath_index K s₀ gs c hacc,
    fun gs => subtractPath_index K s₀ gs hacc,
    rfl, ?_,
    fun hd => RendererState.ensure_eq_of_dirty hd,
    fun hd => RendererState.ensure_eq_of_not_dirty hd,
    rfl, rfl⟩
  intro h2
  have hne : ¬ s₀.layer.length < 2 := by omega
  unfold flatten
  rw [if_neg hne]
  exact ⟨rfl, rfl⟩

/-- Witness for C9 at a concrete empty renderer state with a clean, accurate
index. -/
theorem c9_index_discipline_witness :
    ((⟨[], [], false, 0⟩ : RendererState).indexDirty = false →
      IndexAccurate ⟨[], [], false, 0⟩) ∧
    (RendererState.clear ⟨[], [], false, 0⟩).indexDirty = true ∧
    ((⟨[], [], false, 0⟩ : RendererState).addPath KExact [{(0, 0)}] 3).indexDirty
      = false := by
  have hacc : (⟨[], [], false, 0⟩ : RendererState).indexDirty = false →
      IndexAccurate ⟨[], [], false, 0⟩ :=
    fun _ => ⟨by simp, by simp⟩
  have h := c9_index_discipline KExact ⟨[], [], false, 0⟩ hacc
  exact ⟨hacc, h.2.2.1, (h.1 [{(0, 0)}] 3).1⟩

/-- Counterexample for C9 as stated: `flatten` does not set the dirty flag —
on a two-region layer (even starting from a dirty index) it rebuilds the
index eagerly and leaves the flag clear. -/
theorem c9_flatten_leaves_index_clean :
    (flatten KExact
      ⟨[⟨0, 1, {(0, 0)}⟩, ⟨1, 2, {(5, 5)}⟩], [], true, 2⟩).indexDirty =
      false := by decide

/-- C1, amended: on a well-formed layer (unique item ids below the fresh-id
counter, an accurate spatial index whenever the dirty flag is clear) whose
regions are pairwise disjoint, every compositor operation that introduces at
most one region — `addPath` with a single traced geometry, `subtractPath`,
`placeSelection` of a layer child — again leaves the layer's filled
geometries pairwise disjoint, and `flatten` under the exact kernel leaves a
pairwise disjoint layer from any state.  (A multi-geometry `addPath` import
can violate the invariant: see the counterexample.) -/
theorem c1_no_partial_overlap (s : RendererState)
    (hn : (s.layer.map Region.id).Nodup)
    (hfresh : ∀ r ∈ s.layer, r.id < s.nextId)
    (hacc : s.indexDirty = false → IndexAccurate s)
    (hdisj : s.layer.Pairwise (fun a b => Disjoint a.geom b.geom)) :
    (∀ g c, (s.addPath KExact [g] c).layer.Pairwise
      (fun a b => Disjoint a.geom b.geom)) ∧
    (∀ gs, (s.subtractPath KExact gs).layer.Pairwise
      (fun a b => Disjoint a.geom b.geom)) ∧
    (∀ item ∈ s.layer, (s.placeSelection KExact item).layer.Pairwise
      (fun a b => Disjoint a.geom b.geom)) ∧
    (∀ s₁ : RendererState, (flatten KExact s₁).layer.Pairwise
      (fun a b => Disjoint a.geom b.geom)) :=
  ⟨fun g c => addPath_single_pairwise s g c hn hfresh hacc hdisj,
   fun gs => subtractPath_pairwise s gs hn hfresh hdisj,
   fun item hitem => placeSelection_pairwise s item hn hfresh hacc hitem hdisj,
   fun s₁ => flatten_pairwise s₁⟩

/-- Witness for C1 at a one-region state with a clean accurate index: adding
an overlapping same-color stroke keeps the layer pairwise disjoint. -/
theorem c1_no_partial_overlap_witness :
    (((⟨[⟨0, 5, {(0, 0), (1, 0)}⟩], [(0, RendererState.boxOfD {(0, 0), (1, 0)})],
        false, 1⟩ : RendererState).layer.map Region.id).Nodup ∧
      (⟨[⟨0, 5, {(0, 0), (1, 0)}⟩], [(0, RendererState.boxOfD {(0, 0), (1, 0)})],
        false, 1⟩ : RendererState).layer.Pairwise
        (fun a b => Disjoint a.geom b.geom)) ∧
    ((⟨[⟨0, 5, {(0, 0), (1, 0)}⟩], [(0, RendererState.boxOfD {(0, 0), (1, 0)})],
        false, 1⟩ : RendererState).addPath KExact [{(1, 0), (2, 0)}] 5).layer.Pairwise
      (fun a b => Disjoint a.geom b.geom) :=
  ⟨⟨by decide, by decide⟩,
   (c1_no_partial_overlap
      ⟨[⟨0, 5, {(0, 0), (1, 0)}⟩], [(0, RendererState.boxOfD {(0, 0), (1, 0)})],
        false, 1⟩
      (by decide) (by decide) (fun _ => ⟨by decide, by decide⟩)
      (by decide)).1 {(1, 0), (2, 0)} 5⟩

/-- Counterexample for C1 as stated: `addPath` with two overlapping traced
geometries of the same color leaves both in the layer — the collision
candidates exclude the new paths themselves, so two new paths are never
merged with each other and the layer ends with two identical overlapping
same-color regions. -/
theorem c1_counterexample :
    ¬ ((RendererState.addPath KExact ⟨[], [], false, 0⟩
        [{(0, 0)}, {(0, 0)}] 5).layer.Pairwise
      (fun a b => Disjoint a.geom b.geom)) := by decide

end Inkwell
